import Mathlib

/-!
Verification of the ProgressionGraph repository (TypeScript).

This file gives a shallow embedding of the parts of the source that the
frozen claims are about:

* `src/Traverse.ts`  -- the traversal engine (reset, step, visit, scan,
  requirement satisfaction, status changes);
* `src/Config.ts`    -- the constant-resolution pass of the parser;
* `src/Analysis.ts`  -- the aggregator (median, mode, zero padding);
* `src/Utils.ts`     -- the cooperative task queue (schedule, priority,
  tick, flush).

Conventions of the embedding:

* JavaScript numbers are modelled by rationals `Rat`; `NaN` (which the
  source can produce by multiplying by an `undefined` multiplier, or by
  string arithmetic on an unresolved constant name) is modelled by the
  dedicated constructor `Amount.nan`, and `undefined` map entries by
  `Option.none`.  The coercions and comparisons used by the source
  (`!x`, `x != y` with a boolean, `<` with NaN or undefined) are modelled
  by the `falsy`, `looseEqBool` and `jsLt` functions below.
* Mutable JS objects become explicit state records threaded through the
  functions; JS `Map` and plain-object maps that the claims iterate become
  association lists, the rest become functions into `Option`.
* The breadth-first `Visit` loop of the source can in principle grow its
  queue while running; it is embedded with an explicit fuel argument that
  is instantiated with a bound that dominates the number of iterations the
  source loop can make, so an invariant proved for every fuel in particular
  holds for the real run.
-/

namespace ProgressionGraph

/-- Amount mirrors `type Amount = number | boolean` from `src/Config.ts`,
with an extra constructor `nan` for the IEEE NaN value that the source
can produce inside the `number` case (e.g. `Math.round(x * undefined)`).
`typeof a == "boolean"` in the source corresponds to matching `bool`;
both `num` and `nan` answer to `typeof a == "number"`. -/
inductive Amount where
  | bool (b : Bool)
  | num (q : Rat)
  | nan
deriving DecidableEq, Repr

/-- Math.round of JavaScript: round to the nearest integer, halves toward
positive infinity. -/
def jsRound (q : Rat) : Rat := ((q + 1/2).floor : Int)

/-- ToNumber coercion used by JS arithmetic and `<`: `undefined` and `NaN`
have no rational value (`none`), booleans coerce to 0/1. -/
def toNum : Option Amount → Option Rat
  | none => none
  | some (.bool b) => some (if b then 1 else 0)
  | some (.num q) => some q
  | some .nan => none

/-- JS truthiness test `!x` (negated): `undefined`, `false`, `0` and `NaN`
are falsy. -/
def falsy : Option Amount → Bool
  | none => true
  | some (.bool b) => !b
  | some (.num q) => q == 0
  | some .nan => true

/-- JS loose equality `x == b` between an arbitrary status value and a
boolean literal: a boolean compares directly, a number compares with the
boolean coerced to 0/1, `undefined` and `NaN` are never equal to a
boolean. -/
def looseEqBool : Option Amount → Bool → Bool
  | none, _ => false
  | some (.bool b), c => b == c
  | some (.num q), c => q == (if c then 1 else 0)
  | some .nan, _ => false

/-- JS `<` between two (possibly undefined / NaN) values after ToNumber
coercion: any comparison involving NaN or undefined is false. -/
def jsLt (x y : Option Amount) : Bool :=
  match toNum x, toNum y with
  | some a, some b => a < b
  | _, _ => false

/-- FastRemoveAt from `src/Utils.ts` (`List.FastRemoveAt`): overwrite index
`i` with the last element and pop the last element.  The source asserts
`0 <= i < length`; all call sites in the embedding satisfy that. -/
def fastRemoveAt {α : Type} (l : List α) (i : Nat) : List α :=
  if i + 1 = l.length then l.dropLast
  else
    match l.getLast? with
    | none => l
    | some lastv => (l.set i lastv).dropLast

/-- FastRemove from `src/Utils.ts` (`List.FastRemove`): find the first
index of the value and swap-remove it; no-op when absent. -/
def fastRemove {α : Type} [BEq α] (l : List α) (v : α) : List α :=
  let i := l.indexOf v
  if i < l.length then fastRemoveAt l i else l

/-- Run `f` at indices `n-1, n-2, ..., 0`, threading the state: the shape
of the two reverse `for` loops of `ScanForVisible`. -/
def loopDown {σ : Type} (f : Nat → σ → σ) : Nat → σ → σ
  | 0, s => s
  | i + 1, s => loopDown f i (f i s)

/-- IncrementProperty from `src/Utils.ts` on a numeric map: add when the
key is present, assign when it is `undefined`. -/
def incrProp (f : String → Option Rat) (id : String) (d : Rat) : String → Option Rat :=
  fun x => if x = id then some ((f id).getD 0 + d) else f x

/-- UnlockType from `src/Config.ts`: "traverse" | "manual" | "auto". -/
inductive UnlockType where
  | traverse
  | manual
  | auto
deriving DecidableEq, Repr

/-- NodeRef from `src/Config.ts`, restricted to references whose `amount`
is already a literal boolean or number (the separate `ConfigAmount`
development below models references whose amount is a constant name). -/
structure NodeRef where
  id : String
  amount : Amount
  consume : Bool
  unlock : Bool
deriving DecidableEq, Repr

/-- NodeData from `src/Config.ts`. -/
structure NodeData where
  id : String
  type : Option String
  isToken : Bool
  disableTraversal : Bool
  unlockType : UnlockType
  requires : List NodeRef
  results : List NodeRef
deriving DecidableEq, Repr

/-- Configuration from `src/Config.ts`.  `nodes` and `tokens` are the two
`Map`s in insertion order (lookup is by `id`); `startWith` is the initial
status object. -/
structure Configuration where
  nodes : List NodeData
  tokens : List NodeData
  tokenIds : List String
  startWith : List (String × Amount)
deriving Repr

/-- Lookup in the `nodes` map (`config.nodes.get(id)`). -/
def findNode (config : Configuration) (id : String) : Option NodeData :=
  config.nodes.find? (fun n => n.id == id)

/-- Lookup in the `startWith` object. -/
def startWithAt (config : Configuration) (id : String) : Option Amount :=
  (config.startWith.find? (fun p => p.1 == id)).map (fun p => p.2)

/-- TraversalChange from `src/Traverse.ts` (one entry of a step's
`changes` array); the source leaves `unlock` undefined except for unlock
grants, modelled as `false`. -/
structure TraversalChange where
  id : String
  adjust : Amount
  unlock : Bool
deriving DecidableEq, Repr

/-- TraversalStep from `src/Traverse.ts`: trigger id, recorded changes,
and the per-type tally of available nodes (an insertion-ordered object). -/
structure TraversalStep where
  id : String
  changes : List TraversalChange
  available : List (String × Nat)
deriving DecidableEq, Repr

/-- RuntimeModifiers from `src/Modifiers.ts`: two per-token multiplier
maps. -/
structure RuntimeModifiers where
  tokenAddMultipliers : String → Option Rat
  tokenConsumeMultipliers : String → Option Rat

/-- TraversalState from `src/Traverse.ts`.  Sets keep their JS insertion
order as lists; object maps are functions into `Option`. -/
structure TraversalState where
  unlocked : List String
  status : String → Option Amount
  addedTokens : String → Option Rat
  consumedTokens : String → Option Rat
  visited : List String
  available : List String
  hidden : List String
  path : List TraversalStep
  addMult : String → Option Rat
  consMult : String → Option Rat

/-- ApplyResult from `src/Traverse.ts`. -/
inductive ApplyResult where
  | NO_CHANGE
  | MODIFIED
  | NEW_ASSET
  | REMOVED_ASSET
deriving DecidableEq, Repr

/-- ToConsume from `src/Traverse.ts`: negate a boolean, negate a number
(negating NaN stays NaN). -/
def toConsume : Amount → Amount
  | .bool b => .bool (!b)
  | .num q => .num (-q)
  | .nan => .nan

/-- Multiply a number by an optional multiplier and round, as the numeric
arm of `ResolveValue` does: a missing (`undefined`) multiplier makes the
product NaN. -/
def mulRound (q : Rat) (m : Option Rat) : Amount :=
  match m with
  | some r => .num (jsRound (q * r))
  | none => .nan

/-- ResolveValue from `src/Traverse.ts`: booleans pass through; numbers
are scaled by the consume multiplier when `forceConsume` is set or the
amount is negative, else by the add multiplier, then rounded.  NaN input
(`amount < 0` is false for NaN) follows the same branches and stays NaN. -/
def resolveValue (s : TraversalState) (id : String) (a : Amount) (forceConsume : Bool) : Amount :=
  match a with
  | .bool b => .bool b
  | .num q =>
      if forceConsume || q < 0 then mulRound q (s.consMult id)
      else mulRound q (s.addMult id)
  | .nan =>
      if forceConsume then
        match s.consMult id with
        | some _ => .nan
        | none => .nan
      else
        match s.addMult id with
        | some _ => .nan
        | none => .nan

/-- ChangeStatus from `src/Traverse.ts`.  Boolean amounts toggle on
loose inequality; numeric amounts clamp `old + amount` at 0, store it
unconditionally, and log the actual delta into the consumed/added token
totals. -/
def changeStatus (s : TraversalState) (id : String) (a : Amount) : ApplyResult × TraversalState :=
  let oldVal := s.status id
  match a with
  | .bool b =>
      if looseEqBool oldVal b then (.NO_CHANGE, s)
      else
        (if b then .NEW_ASSET else .REMOVED_ASSET,
         { s with status := fun x => if x = id then some (.bool b) else s.status x })
  | _ =>
      let sum : Option Rat := do
        let o ← toNum oldVal
        let v ← toNum (some a)
        pure (o + v)
      let newVal : Amount := match sum with
        | some q => .num (max 0 q)
        | none => .nan
      let s1 := { s with status := fun x => if x = id then some newVal else s.status x }
      match toNum (some newVal), toNum oldVal with
      | some nv, some ov =>
          if nv < ov then
            (.MODIFIED, { s1 with consumedTokens := incrProp s1.consumedTokens id (ov - nv) })
          else if ov < nv then
            (.MODIFIED, { s1 with addedTokens := incrProp s1.addedTokens id (nv - ov) })
          else (.NO_CHANGE, s1)
      | _, _ => (.NO_CHANGE, s1)

/-- SatisfiesRequirements from `src/Traverse.ts`: every requirement with a
boolean amount must be loosely equal in `status`; every other requirement
resolves its threshold with `forceConsume = true` and fails only when
`status < threshold` is (JS-)true. -/
def satisfiesRequirements (s : TraversalState) (node : NodeData) : Bool :=
  node.requires.all fun req =>
    match req.amount with
    | .bool b => looseEqBool (s.status req.id) b
    | a => !(jsLt (s.status req.id) (some (resolveValue s req.id a true)))

/-- AddChangeToStep from `src/Traverse.ts`. -/
def addChange (step : TraversalStep) (id : String) (a : Amount) (unlock : Bool) : TraversalStep :=
  { step with changes := step.changes ++ [⟨id, a, unlock⟩] }

/-- Loop of ApplyRequirements from `src/Traverse.ts` over the requirement
list (the source's indexed `for` loop, one recursive call per index):
each `consume` requirement is negated, resolved (the call site passes no
`forceConsume`, hence `false`) and applied, and the change is always
recorded. -/
def applyRequirementsList (step : TraversalStep) (s : TraversalState) :
    List NodeRef → TraversalStep × TraversalState
  | [] => (step, s)
  | req :: rest =>
      if req.consume then
        let flip := resolveValue s req.id (toConsume req.amount) false
        let (_, s') := changeStatus s req.id flip
        applyRequirementsList (addChange step req.id flip false) s' rest
      else applyRequirementsList step s rest

/-- ApplyRequirements from `src/Traverse.ts`. -/
def applyRequirements (s : TraversalState) (node : NodeData) (step : TraversalStep) :
    TraversalStep × TraversalState :=
  applyRequirementsList step s node.requires

/-- Loop of ApplyResults from `src/Traverse.ts` over the result list:
consume results mirror consumed requirements; unlock results add to
`unlocked` once and record an unlock change with adjust 0; plain results
resolve, apply, record the change on any effect, and push the target on
the visit queue on a `NEW_ASSET`. -/
def applyResultsList (step : TraversalStep) (s : TraversalState) (queue : List String) :
    List NodeRef → TraversalStep × TraversalState × List String
  | [] => (step, s, queue)
  | res :: rest =>
      if res.consume then
        let flip := resolveValue s res.id (toConsume res.amount) false
        let (_, s') := changeStatus s res.id flip
        applyResultsList (addChange step res.id flip false) s' queue rest
      else if res.unlock then
        if res.id ∈ s.unlocked then applyResultsList step s queue rest
        else
          applyResultsList (addChange step res.id (.num 0) true)
            { s with unlocked := s.unlocked ++ [res.id] } queue rest
      else
        let v := resolveValue s res.id res.amount false
        let (chg, s') := changeStatus s res.id v
        if chg = .NO_CHANGE then applyResultsList step s' queue rest
        else
          applyResultsList (addChange step res.id v false) s'
            (if chg = .NEW_ASSET then queue ++ [res.id] else queue) rest

/-- ApplyResults from `src/Traverse.ts`. -/
def applyResults (s : TraversalState) (node : NodeData) (step : TraversalStep)
    (queue : List String) : TraversalStep × TraversalState × List String :=
  applyResultsList step s queue node.results

/-- Total number of result references in the graph; used to bound the
visit loop. -/
def totalResults (config : Configuration) : Nat :=
  config.nodes.foldl (fun a n => a + n.results.length) 0

/-- Fuel that dominates the number of iterations of the `while` loop in
`Visit`: every iteration pops one queue entry, and entries are only pushed
when a result flips a status to true, at most once per result application,
so the initial queue plus `totalResults` (plus slack) suffices. -/
def visitFuel (config : Configuration) (queue : List String) : Nat :=
  queue.length + 2 * (config.nodes.length + totalResults config) + 2

/-- Body of the `while` loop in `Visit` from `src/Traverse.ts`, with fuel.
Pops the head of the queue; already-visited ids are skipped; otherwise the
id is marked visited, its status set to `true`, it is swap-removed from
both frontier lists, recorded as a change when it is a cascaded visit into
an existing step, and its requirements (root only) and results applied. -/
def visitLoop (config : Configuration) (rootId : String) (hadStep : Bool) :
    Nat → List String → TraversalStep → Bool → TraversalState →
    TraversalStep × Bool × TraversalState
  | 0, _, step, took, s => (step, took, s)
  | _ + 1, [], step, took, s => (step, took, s)
  | fuel + 1, nodeId :: rest, step, took, s =>
      if nodeId ∈ s.visited then
        visitLoop config rootId hadStep fuel rest step took s
      else
        let s1 := { s with
          visited := s.visited ++ [nodeId],
          status := fun x => if x = nodeId then some (.bool true) else s.status x,
          hidden := fastRemove s.hidden nodeId,
          available := fastRemove s.available nodeId }
        let step1 := if nodeId ≠ rootId ∧ hadStep then addChange step nodeId (.bool true) false
                     else step
        match findNode config nodeId with
        | some node =>
            let pA := if nodeId = rootId then applyRequirements s1 node step1 else (step1, s1)
            let pB := applyResults pA.2 node pA.1 rest
            visitLoop config rootId hadStep fuel pB.2.2 pB.1 true pB.2.1
        | none => visitLoop config rootId hadStep fuel rest step1 true s1

/-- Visit from `src/Traverse.ts`.  Returns the step object (the source
returns `null` when no step was taken, modelled by the `Bool` component),
and pushes a freshly-created step onto `path` when a step was taken. -/
def visit (config : Configuration) (s : TraversalState) (queue : List String)
    (rootId : String) (stepOpt : Option TraversalStep) :
    TraversalStep × Bool × TraversalState :=
  let hadStep := stepOpt.isSome
  let step0 := stepOpt.getD ⟨rootId, [], []⟩
  let r := visitLoop config rootId hadStep (visitFuel config queue) queue step0 false s
  if r.2.1 ∧ ¬hadStep then (r.1, r.2.1, { r.2.2 with path := r.2.2.path ++ [r.1] })
  else r

/-- Accumulator of `ScanForVisible`: the traversal state plus the `auto`
output array. -/
structure ScanAcc where
  s : TraversalState
  auto : List String

/-- Body of the first (hidden) loop of `ScanForVisible` at index `i`:
skip unknown ids, locked manual nodes and unsatisfied nodes; otherwise
swap-remove from `hidden`, append to `available`, and collect auto nodes
when an `auto` array was supplied. -/
def scanHiddenBody (config : Configuration) (useAuto : Bool) (i : Nat) (acc : ScanAcc) : ScanAcc :=
  match acc.s.hidden[i]? with
  | none => acc
  | some id =>
    match findNode config id with
    | none => acc
    | some node =>
        if node.unlockType = .manual ∧ id ∉ acc.s.unlocked then acc
        else if ¬satisfiesRequirements acc.s node then acc
        else
          { s := { acc.s with
              hidden := fastRemoveAt acc.s.hidden i,
              available := acc.s.available ++ [id] },
            auto := if node.unlockType = .auto ∧ useAuto then acc.auto ++ [id] else acc.auto }

/-- Body of the second (available) loop of `ScanForVisible` at index `i`:
a node whose requirements no longer hold is swap-removed from `available`
and appended back to `hidden`.  (The source would crash on an id missing
from the node map; `available` only ever holds node ids, so the `none`
branch is unreachable and modelled as a skip.) -/
def scanAvailBody (config : Configuration) (i : Nat) (s : TraversalState) : TraversalState :=
  match s.available[i]? with
  | none => s
  | some id =>
    match findNode config id with
    | none => s
    | some node =>
        if satisfiesRequirements s node then s
        else { s with
          available := fastRemoveAt s.available i,
          hidden := s.hidden ++ [id] }

/-- ScanForVisible from `src/Traverse.ts`: reverse-iterate `hidden` moving
newly satisfied nodes to `available` (collecting auto nodes), then
reverse-iterate `available` moving no-longer-satisfied nodes back.
The source also returns a change count used only for logging, dropped
here. -/
def scanForVisible (config : Configuration) (s : TraversalState) (useAuto : Bool) :
    List String × TraversalState :=
  let acc := loopDown (scanHiddenBody config useAuto) s.hidden.length ⟨s, []⟩
  let s2 := loopDown (scanAvailBody config) acc.s.available.length acc.s
  (acc.auto, s2)

/-- SumAvailableNodesByType from `src/Traverse.ts`: tally the currently
available nodes by their `type` into an insertion-ordered counter map. -/
def sumAvailableByType (config : Configuration) (s : TraversalState) : List (String × Nat) :=
  s.available.foldl
    (fun counters id =>
      match findNode config id with
      | some node =>
          match node.type with
          | some t =>
              if counters.any (fun p => p.1 == t) then
                counters.map (fun p => if p.1 == t then (p.1, p.2 + 1) else p)
              else counters ++ [(t, 1)]
          | none => counters
      | none => counters)
    []

/-- TraversalPerformStep from `src/Traverse.ts`.  The uniform shuffle of
`available` is the only randomness of the engine; the embedding receives
the shuffled list as the `shuffled` argument (theorems quantify over all
permutations of `available`).  The visit of the popped id, the visibility
scan, the cascaded visit of any auto nodes into the same step object, and
the final per-type tally follow the source; the step object pushed on
`path` is the same object the caller receives, so the final mutations are
written back into the last `path` entry. -/
def performStep (config : Configuration) (s : TraversalState) (shuffled : List String) :
    Option TraversalStep × TraversalState :=
  if s.available.isEmpty then (none, s)
  else
    let s0 := { s with available := shuffled }
    let id := shuffled.headD ""
    let v1 := visit config s0 [id] id none
    let sc := scanForVisible config v1.2.2 true
    let pF :=
      if sc.1.isEmpty then (v1.1, sc.2)
      else
        let v2 := visit config sc.2 sc.1 id (if v1.2.1 then some v1.1 else none)
        (if v1.2.1 then v2.1 else v1.1, v2.2.2)
    if v1.2.1 then
      let final := { pF.1 with available := sumAvailableByType config pF.2 }
      (some final, { pF.2 with path := pF.2.path.dropLast ++ [final] })
    else (none, pF.2)

/-- FillModifierDefaults from `src/Modifiers.ts`: assign 1 to every token
id whose multiplier entry is undefined, keeping existing entries. -/
def fillDefaults (f : String → Option Rat) (ids : List String) : String → Option Rat :=
  fun x => if ids.contains x then some ((f x).getD 1) else f x

/-- TraversalReset from `src/Traverse.ts` on a fresh state: clear
everything, seed `status` from `startWith`, put every node with a falsy
status into `hidden` and the rest into `visited`, install the (copied)
modifiers with defaults filled in, and run the visibility scan without an
auto array (so no node is auto-visited during reset). -/
def traversalReset (config : Configuration) (modifiers : Option RuntimeModifiers) :
    TraversalState :=
  let status0 : String → Option Amount := fun id => startWithAt config id
  let (hidden0, visited0) :=
    config.nodes.foldl
      (fun (acc : List String × List String) n =>
        if falsy (status0 n.id) then (acc.1 ++ [n.id], acc.2)
        else (acc.1, acc.2 ++ [n.id]))
      ([], [])
  let (add0, cons0) :=
    match modifiers with
    | some m => (m.tokenAddMultipliers, m.tokenConsumeMultipliers)
    | none => ((fun _ => none), (fun _ => none))
  let s : TraversalState :=
    { unlocked := [], status := status0,
      addedTokens := fun _ => none, consumedTokens := fun _ => none,
      visited := visited0, available := [], hidden := hidden0, path := [],
      addMult := fillDefaults add0 config.tokenIds,
      consMult := fillDefaults cons0 config.tokenIds }
  (scanForVisible config s false).2

/-- Reachable states of the engine: a fresh reset with any modifier set,
and any number of `TraversalPerformStep` calls, where the shuffled
frontier handed to a step may be any permutation of the current
`available` array (`Shuffle` of the source is a uniform Fisher-Yates
permutation). -/
inductive Reachable (config : Configuration) : TraversalState → Prop where
  | reset (mods : Option RuntimeModifiers) : Reachable config (traversalReset config mods)
  | step (s : TraversalState) (sh : List String) (hsh : sh.Perm s.available)
      (h : Reachable config s) : Reachable config (performStep config s sh).2

/-! Aggregator, from `src/Analysis.ts`. -/

/-- Counter from `src/Analysis.ts`: a running sum and the list of recorded
values, in recording order. -/
structure Counter where
  sum : Rat
  values : List Rat
deriving DecidableEq, Repr

/-- Statistic from `src/Analysis.ts`.  `FindMode` returns `null` on an
empty list, modelled by `Option`; `values` lists are never empty in
practice so `mode` is always `some` there. -/
structure Statistic where
  mean : Rat
  median : Rat
  mode : Option Rat
deriving DecidableEq, Repr

/-- CounterMap / StatisticMap: plain JS objects, iterated by
`Object.entries` in insertion order, hence association lists. -/
abbrev CounterMap := List (String × Counter)

abbrev StatisticMap := List (String × Statistic)

/-- AggregateState from `src/Analysis.ts` (`open` is a Lean keyword, so
the `open` counter map is called `openNodes` here). -/
structure AggregateState where
  steps : CounterMap
  openNodes : CounterMap
  addedTokens : CounterMap
  consumedTokens : CounterMap
  endState : CounterMap
  unfinished : CounterMap
  sampleCount : Nat
  stepCount : Nat
deriving DecidableEq, Repr

/-- AggregateStatistics from `src/Analysis.ts`. -/
structure AggregateStatistics where
  steps : StatisticMap
  openNodes : StatisticMap
  addedTokens : StatisticMap
  consumedTokens : StatisticMap
  endState : StatisticMap
  unfinished : StatisticMap
  sampleCount : Nat
  stepCount : Nat
deriving DecidableEq, Repr

/-- Loop state of `FindMode`: best value and run length so far, current
value and current run length.  `currentVal` starts as JS `undefined`,
modelled by `none`. -/
def findModeAux : Option Rat → Nat → Option Rat → Nat → List Rat → Option Rat
  | commonVal, _, _, _, [] => commonVal
  | commonVal, commonCount, currentVal, currentCount, x :: xs =>
      let (curV, curC) :=
        if currentVal = some x then (currentVal, currentCount + 1) else (some x, 1)
      if commonCount < curC then findModeAux (some x) curC curV curC xs
      else findModeAux commonVal commonCount curV curC xs

/-- FindMode from `src/Analysis.ts`: single scan over the (sorted) value
list, tracking the current run and keeping the first run whose length
strictly exceeds the best so far. -/
def findMode (values : List Rat) : Option Rat :=
  findModeAux none 0 none 0 values

/-- Ascending JS `Array.sort` with `DefaultCompare`, applied to numbers:
the unique ascending reordering of the list. -/
def valueSort (l : List Rat) : List Rat :=
  l.mergeSort (fun a b => a ≤ b)

/-- Per-key body of `Average` from `src/Analysis.ts`: unshift zeros until
the value list reaches the sample base (no-op when already long enough),
sort ascending in place, then mean = sum / base, median = element at
index `floor(length / 2)`, mode = `FindMode`.  Returns the (mutated)
counter together with the statistic. -/
def averageOne (base : Nat) (c : Counter) : Counter × Statistic :=
  let padded := List.replicate (base - c.values.length) 0 ++ c.values
  let sorted := valueSort padded
  (⟨c.sum, sorted⟩,
   ⟨c.sum / (base : Rat), sorted.getD (sorted.length / 2) 0, findMode sorted⟩)

/-- Average from `src/Analysis.ts` over a whole counter map; the source
mutates the counters (padding and sorting their value lists), so the
updated map is returned alongside the statistics. -/
def average (base : Nat) (counters : CounterMap) : CounterMap × StatisticMap :=
  (counters.map (fun p => (p.1, (averageOne base p.2).1)),
   counters.map (fun p => (p.1, (averageOne base p.2).2)))

/-- AggregateProcess from `src/Analysis.ts`: with no accumulated samples
it returns `null` before touching anything; otherwise it averages every
counter map, the `open` map over the step count and all others over the
sample count.  The pair returns the JS return value and the (possibly
mutated) aggregator. -/
def aggregateProcess (agg : AggregateState) :
    Option AggregateStatistics × AggregateState :=
  if agg.sampleCount = 0 then (none, agg)
  else
    let (steps', stepsStat) := average agg.sampleCount agg.steps
    let (open', openStat) := average agg.stepCount agg.openNodes
    let (added', addedStat) := average agg.sampleCount agg.addedTokens
    let (consumed', consumedStat) := average agg.sampleCount agg.consumedTokens
    let (end', endStat) := average agg.sampleCount agg.endState
    let (unf', unfStat) := average agg.sampleCount agg.unfinished
    (some ⟨stepsStat, openStat, addedStat, consumedStat, endStat, unfStat,
           agg.sampleCount, agg.stepCount⟩,
     { agg with steps := steps', openNodes := open', addedTokens := added',
                consumedTokens := consumed', endState := end', unfinished := unf' })

/-! Specification-side notions for the aggregator claims: runs of equal
adjacent values and the first run of maximal length. -/

/-- Maximal blocks of equal adjacent values, as (value, length) pairs in
order of appearance. -/
def runs : List Rat → List (Rat × Nat)
  | [] => []
  | x :: xs =>
    match runs xs with
    | [] => [(x, 1)]
    | (v, c) :: rest => if v = x then (v, c + 1) :: rest else (x, 1) :: (v, c) :: rest

/-- Fold selecting the first run strictly longer than everything before
it: the value/length of the first maximal-length run. -/
def pickFirstLongest (init : Option Rat × Nat) (rs : List (Rat × Nat)) : Option Rat × Nat :=
  rs.foldl (fun best r => if best.2 < r.2 then (some r.1, r.2) else best) init

/-- Value of the first maximal-length run of the list (none for an empty
list). -/
def firstLongestRun (l : List Rat) : Option Rat :=
  (pickFirstLongest (none, 0) (runs l)).1

/-- Zero-pad the front of a value list up to the sample base and sort
ascending, as the specification describes the median input list. -/
def paddedSorted (base : Nat) (values : List Rat) : List Rat :=
  List.insertionSort (· ≤ ·) (List.replicate (base - values.length) 0 ++ values)

/-- Median as the specification describes it: the element at index
`floor(length / 2)` of the padded, ascending-sorted value list. -/
def medianSpec (base : Nat) (values : List Rat) : Rat :=
  let l := paddedSorted base values
  l.getD (l.length / 2) 0

/-! Cooperative task queue, from `src/Utils.ts`. -/

/-- TaskResult from `src/Utils.ts`; `DONE = 0` is the only falsy member. -/
inductive TaskResult where
  | DONE
  | CONTINUE
  | NEXT_FRAME
deriving DecidableEq, Repr

/-- TaskStatus from `src/Utils.ts`. -/
inductive TaskStatus where
  | INVALID
  | SCHEDULED
  | EXECUTING
  | INTERRUPTED
  | ERROR
  | FINISHED
deriving DecidableEq, Repr

/-- A task that a running work unit priority-inserts into the queue while
it executes (the work unit calls `Priority` on its own queue).  The model
has the test fix the inserted unit's id; the source draws it from the
monotonic `NextId` counter. -/
structure PendingTask where
  id : Nat
  name : String
  steps : List TaskResult
deriving DecidableEq, Repr

/-- One resumption of a plain-function work unit: the value it returns and
the priority insertion, if any, it performs while running. -/
structure FnStep where
  res : TaskResult
  ins : Option PendingTask
deriving DecidableEq, Repr

/-- A work unit's method.  A plain function is the list of its successive
return values (with possible queue effects); calling it once the list is
exhausted returns JS `undefined`, which is falsy like `DONE`.  A generator
is the list of its successive `next()` yield values (`none` for a bare
`yield;`); once exhausted, `next()` reports `done`. -/
inductive TaskMethod where
  | fn (steps : List FnStep)
  | gen (steps : List (Option TaskResult))
deriving DecidableEq, Repr

/-- TaskWorkUnit from `src/Utils.ts` (the unused per-unit context and the
completion callback are dropped; completion is observed through the event
log instead). -/
structure WorkUnit where
  id : Nat
  name : String
  method : TaskMethod
  status : TaskStatus
deriving DecidableEq, Repr

/-- Observable event log of a queue run: one `Resumed` per call into a
unit's method, one `Completed` per `onComplete` firing. -/
inductive QueueEvent where
  | Resumed (name : String)
  | Completed (name : String)
deriving DecidableEq, Repr

/-- Update the work unit with the given id: the source mutates the single
object it holds a reference to, here the first (and, ids being issued by
`NextId`, only) unit with that id. -/
def updateUnit : List WorkUnit → Nat → (WorkUnit → WorkUnit) → List WorkUnit
  | [], _, _ => []
  | u :: rest, uid, f =>
      if u.id = uid then f u :: rest else u :: updateUnit rest uid f

/-- Status lookup (`StatusOf` returns `INVALID` for unknown units). -/
def statusOfUnit (q : List WorkUnit) (uid : Nat) : TaskStatus :=
  match q.find? (fun u => u.id == uid) with
  | some u => u.status
  | none => .INVALID

/-- `List.Remove(this._workUnits, top)` removes the first occurrence of
the unit object. -/
def removeUnit (q : List WorkUnit) (uid : Nat) : List WorkUnit :=
  q.eraseP (fun u => u.id == uid)

/-- Queue mutation performed by `PriorityWithContext`: if the current head
is executing, flip it to `INTERRUPTED`, then unshift the new unit. -/
def priorityInsert (q : List WorkUnit) (u : WorkUnit) : List WorkUnit :=
  let q :=
    match q with
    | top :: rest =>
        if top.status = .EXECUTING then { top with status := .INTERRUPTED } :: rest
        else top :: rest
    | [] => []
  u :: q

/-- The work unit created for a priority-inserted pending task: a plain
function with no further queue effects, status `SCHEDULED`. -/
def mkPendingUnit (p : PendingTask) : WorkUnit :=
  ⟨p.id, p.name, .fn (p.steps.map (fun r => ⟨r, none⟩)), .SCHEDULED⟩

/-- Tick from `src/Utils.ts`.  The wall-clock budget is modelled by fuel:
every check of `start + milliseconds - performance.now() > 0` (one per
outer-loop iteration, one per resumption) costs one unit, and the tick
ends when the fuel runs out.  `phase = none` is the outer `while`: it
sets the head status to `EXECUTING` and enters the inner resumption
loop on it.  `phase = some uid` is the inner loop on the unit `uid`: it
calls the method once — a plain function consumes one `FnStep` (or
returns undefined, falsy like `DONE`, when exhausted) and applies any
priority insertion it performs; a generator consumes one yield (or
reports done when exhausted).  Then, in source order: a finishing result
(falsy return, or done / falsy yield) marks the unit `FINISHED`, removes
it, fires its completion callback and returns to the outer loop; a status
no longer `EXECUTING` (the unit was interrupted) breaks to the outer loop
without removing it; `NEXT_FRAME` ends the whole tick; otherwise the unit
is resumed again. -/
def tickAux : Nat → Option Nat → List WorkUnit → List QueueEvent →
    List WorkUnit × List QueueEvent
  | 0, _, q, log => (q, log)
  | fuel + 1, none, q, log =>
      match q with
      | [] => ([], log)
      | top :: rest =>
          tickAux fuel (some top.id) ({ top with status := TaskStatus.EXECUTING } :: rest) log
  | fuel + 1, some uid, q, log =>
      match q.find? (fun u => u.id == uid) with
      | none => (q, log)
      | some u =>
        match u.method with
        | .fn steps =>
          let (result, rest, insOpt) :=
            match steps with
            | [] => (TaskResult.DONE, ([] : List FnStep), (none : Option PendingTask))
            | st :: r => (st.res, r, st.ins)
          let q := updateUnit q uid (fun u => { u with method := .fn rest })
          let log := log ++ [QueueEvent.Resumed u.name]
          let q :=
            match insOpt with
            | none => q
            | some p => priorityInsert q (mkPendingUnit p)
          if result = .DONE then
            let q := removeUnit (updateUnit q uid (fun u => { u with status := .FINISHED })) uid
            tickAux fuel none q (log ++ [QueueEvent.Completed u.name])
          else if statusOfUnit q uid ≠ .EXECUTING then
            tickAux fuel none q log
          else if result = .NEXT_FRAME then (q, log)
          else tickAux fuel (some uid) q log
        | .gen steps =>
          let (finished, isNextFrame, rest) :=
            match steps with
            | [] => (true, false, ([] : List (Option TaskResult)))
            | v :: r => (v = some TaskResult.DONE, v = some TaskResult.NEXT_FRAME, r)
          let q := updateUnit q uid (fun u => { u with method := .gen rest })
          let log := log ++ [QueueEvent.Resumed u.name]
          if finished then
            let q := removeUnit (updateUnit q uid (fun u => { u with status := .FINISHED })) uid
            tickAux fuel none q (log ++ [QueueEvent.Completed u.name])
          else if statusOfUnit q uid ≠ .EXECUTING then
            tickAux fuel none q log
          else if isNextFrame then (q, log)
          else tickAux fuel (some uid) q log

/-- Tick entry point: start in the outer loop with the given fuel. -/
def tickRun (fuel : Nat) (q : List WorkUnit) (log : List QueueEvent) :
    List WorkUnit × List QueueEvent :=
  tickAux fuel none q log

/-- Resumption loop of `FlushTop` for a plain-function unit
(`while (hasMore = method.apply(undefined, top.context))`): keep calling
while the result is truthy, ignoring any budget; inside the loop only an
`INVALID` status ends the flush early (without removing the unit); a falsy
result exits the loop, after which the unit is finished, removed and
completed.  The fuel is structural (one method call consumes one step);
`flushTop` supplies more than the list length, which the loop can never
exceed. -/
def flushFn : Nat → Nat → List WorkUnit → List QueueEvent → List WorkUnit × List QueueEvent
  | 0, _, q, log => (q, log)
  | fuel + 1, uid, q, log =>
      match q.find? (fun u => u.id == uid) with
      | none => (q, log)
      | some u =>
        match u.method with
        | .gen _ => (q, log)
        | .fn steps =>
          let (result, rest) :=
            match steps with
            | [] => (TaskResult.DONE, ([] : List FnStep))
            | st :: r => (st.res, r)
          let q := updateUnit q uid (fun u => { u with method := .fn rest })
          let log := log ++ [QueueEvent.Resumed u.name]
          if result = .DONE then
            let q := removeUnit (updateUnit q uid (fun u => { u with status := .FINISHED })) uid
            (q, log ++ [QueueEvent.Completed u.name])
          else if statusOfUnit q uid = .INVALID then (q, log)
          else flushFn fuel uid q log

/-- FlushTop from `src/Utils.ts`.  A plain-function head is resumed until
it returns a falsy value, then finished, removed and completed.  For a
generator head the source computes `hasMore = !(generator.next(top.context))`;
`next()` returns the iterator-result object, which is always truthy, so
`hasMore` is always false: the loop body never runs, the generator is
resumed exactly once by the condition itself, and the unit is immediately
finished, removed and completed, regardless of how many resumptions the
generator still needs. -/
def flushTop (q : List WorkUnit) (log : List QueueEvent) :
    List WorkUnit × List QueueEvent :=
  match q with
  | [] => (q, log)
  | top :: rest =>
      let q := { top with status := TaskStatus.EXECUTING } :: rest
      match top.method with
      | .fn steps => flushFn (steps.length + 2) top.id q log
      | .gen steps =>
          let q := updateUnit q top.id (fun u => { u with method := .gen steps.tail })
          let log := log ++ [QueueEvent.Resumed top.name]
          let q := removeUnit (updateUnit q top.id (fun u => { u with status := .FINISHED })) top.id
          (q, log ++ [QueueEvent.Completed top.name])

/-- TaskQueue object: the work-unit array and the `NextId` counter. -/
structure TaskQueueState where
  workUnits : List WorkUnit
  currentId : Nat
deriving DecidableEq, Repr

/-- An empty task queue. -/
def emptyQueue : TaskQueueState := ⟨[], 0⟩

/-- ScheduleWithContext from `src/Utils.ts`: append a fresh `SCHEDULED`
unit at the back of the queue. -/
def scheduleTask (q : TaskQueueState) (m : TaskMethod) (name : String) : TaskQueueState :=
  ⟨q.workUnits ++ [⟨q.currentId + 1, name, m, .SCHEDULED⟩], q.currentId + 1⟩

/-- PriorityWithContext from `src/Utils.ts`: interrupt the head if it is
executing and unshift a fresh `SCHEDULED` unit at the front. -/
def priorityTask (q : TaskQueueState) (m : TaskMethod) (name : String) : TaskQueueState :=
  ⟨priorityInsert q.workUnits ⟨q.currentId + 1, name, m, .SCHEDULED⟩, q.currentId + 1⟩

/-- Names of the units whose completion callback fired, in firing order. -/
def completions (log : List QueueEvent) : List String :=
  log.filterMap (fun e => match e with | .Completed n => some n | _ => none)

/-! Constant resolution, from `src/Config.ts`, together with the engine
check as it actually behaves on a reference whose `amount` is still a
constant name. -/

/-- ConfigAmount from `src/Config.ts`: a literal amount or the name of a
configured constant. -/
inductive ConfigAmount where
  | amt (a : Amount)
  | constName (n : String)
deriving DecidableEq, Repr

/-- NodeRef from `src/Config.ts` in full: the raw `amount` as parsed and
the `computedAmount` field that `ApplyConfigConsts` fills in. -/
structure NodeRefC where
  id : String
  amount : ConfigAmount
  computedAmount : Amount
  consume : Bool
  unlock : Bool
deriving DecidableEq, Repr

/-- A node whose references still carry `ConfigAmount`s. -/
structure NodeDataC where
  id : String
  requires : List NodeRefC
  results : List NodeRefC
deriving DecidableEq, Repr

/-- ComputeValue from `src/Config.ts`: a constant name resolves through
the constant table, an unresolvable name warns and resolves to `true`, a
literal passes through. -/
def computeValue (consts : String → Option Amount) : ConfigAmount → Amount
  | .constName n =>
      match consts n with
      | none => .bool true
      | some v => v
  | .amt v => v

/-- ApplyConfigConsts from `src/Config.ts`, per reference: store the
computed value in `computedAmount` (leaving `amount` untouched). -/
def applyConfigConstsRef (consts : String → Option Amount) (r : NodeRefC) : NodeRefC :=
  { r with computedAmount := computeValue consts r.amount }

/-- ApplyConfigConsts over a node: recompute every requirement and result
reference. -/
def applyConfigConstsNode (consts : String → Option Amount) (n : NodeDataC) : NodeDataC :=
  { n with requires := n.requires.map (applyConfigConstsRef consts),
           results := n.results.map (applyConfigConstsRef consts) }

/-- ResolveValue as the source executes it when handed a raw
`ConfigAmount`: literals behave as in `resolveValue`; a constant-name
string is not a boolean, so it takes the numeric branch, where
`Math.round(amount * multiplier)` performs string arithmetic and produces
NaN (for constant names that are not numeric literals, which the model
assumes). -/
def resolveValueC (s : TraversalState) (id : String) (a : ConfigAmount)
    (forceConsume : Bool) : Amount :=
  match a with
  | .amt v => resolveValue s id v forceConsume
  | .constName _ => .nan

/-- SatisfiesRequirements from `src/Traverse.ts` exactly as written: it
dispatches on `req.amount` (`typeof req.amount == "boolean"`), never on
`req.computedAmount`. -/
def satisfiesRequirementsRaw (s : TraversalState) (node : NodeDataC) : Bool :=
  node.requires.all fun req =>
    match req.amount with
    | .amt (.bool b) => looseEqBool (s.status req.id) b
    | a => !(jsLt (s.status req.id) (some (resolveValueC s req.id a true)))

/-- The requirement check as the specification describes it: dispatch on
the parse-time `computedAmount` of each reference. -/
def satisfiesRequirementsComputed (s : TraversalState) (node : NodeDataC) : Bool :=
  node.requires.all fun req =>
    match req.computedAmount with
    | .bool b => looseEqBool (s.status req.id) b
    | a => !(jsLt (s.status req.id) (some (resolveValue s req.id a true)))

/-! Claim-level definitions: named configurations, states and properties
that the claim theorems are stated over. -/

/-- Ids of the non-token nodes of a configuration (`config.nodes` keys). -/
def nodeIds (config : Configuration) : List String :=
  config.nodes.map (fun n => n.id)

/-- Well-formedness of a configuration, as needed by the partition
invariant: node ids are distinct (they are keys of a JS `Map`), and every
plainly-produced boolean-true result targets a non-token node (so a
cascade can only queue ids the partition tracks). -/
def WellFormedConfig (config : Configuration) : Prop :=
  (nodeIds config).Nodup ∧
  ∀ n ∈ config.nodes, ∀ r ∈ n.results,
    r.amount = .bool true → r.consume = false → r.unlock = false → r.id ∈ nodeIds config

instance (config : Configuration) : Decidable (WellFormedConfig config) := by
  unfold WellFormedConfig
  infer_instance

/-- The partition property of claim C6: visited, available and hidden
together are a permutation of the non-token node ids (hence, the ids
being distinct, each id lies in exactly one of them), spelled out with
the pairwise-disjointness and coverage statements. -/
def PartitionHolds (config : Configuration) (s : TraversalState) : Prop :=
  (s.visited ++ s.available ++ s.hidden).Perm (nodeIds config) ∧
  (∀ x, ¬(x ∈ s.visited ∧ x ∈ s.available)) ∧
  (∀ x, ¬(x ∈ s.visited ∧ x ∈ s.hidden)) ∧
  (∀ x, ¬(x ∈ s.available ∧ x ∈ s.hidden)) ∧
  (∀ x, x ∈ nodeIds config ↔ (x ∈ s.visited ∨ x ∈ s.available ∨ x ∈ s.hidden))

/-- The two-node graph of the end-to-end scenario: node A
(`unlockKind = Traverse`, no requirements) with the single result
`(targetId B, amount true)`, and node B (`unlockKind = Auto`, requiring
`A == true`) with no results. -/
def cfgAB : Configuration :=
  { nodes :=
      [ { id := "A", type := none, isToken := false, disableTraversal := false,
          unlockType := .traverse, requires := [],
          results := [⟨"B", .bool true, false, false⟩] },
        { id := "B", type := none, isToken := false, disableTraversal := false,
          unlockType := .auto, requires := [⟨"A", .bool true, false, false⟩],
          results := [] } ],
    tokens := [], tokenIds := [], startWith := [] }

/-- The scenario state after `Reset`. -/
def sAB0 : TraversalState := traversalReset cfgAB none

/-- The scenario's first step (the shuffle of the one-element frontier is
the identity). -/
def sAB1 : Option TraversalStep × TraversalState := performStep cfgAB sAB0 ["A"]

/-- The ids mentioned by the changes of an optional step. -/
def stepChangeIds (st : Option TraversalStep) : List String :=
  match st with
  | none => []
  | some st => st.changes.map (fun c => c.id)

/-- A small concrete traversal state used by witnesses: the gold token
holds 5, both multipliers are 1 for gold. -/
def testState : TraversalState :=
  { unlocked := [], status := fun x => if x = "gold" then some (.num 5) else none,
    addedTokens := fun _ => none, consumedTokens := fun _ => none,
    visited := [], available := [], hidden := [], path := [],
    addMult := fun x => if x = "gold" then some 1 else none,
    consMult := fun x => if x = "gold" then some 1 else none }

/-- A concrete state for the constant-name scenario: gold is at 0 with
multiplier 1. -/
def constState : TraversalState :=
  { unlocked := [], status := fun x => if x = "gold" then some (.num 0) else none,
    addedTokens := fun _ => none, consumedTokens := fun _ => none,
    visited := [], available := [], hidden := [], path := [],
    addMult := fun x => if x = "gold" then some 1 else none,
    consMult := fun x => if x = "gold" then some 1 else none }

/-- Constant table with a single constant COST = 5. -/
def constTable : String → Option Amount :=
  fun n => if n = "COST" then some (.num 5) else none

/-- A requirement reference written against the COST constant (the
`computedAmount` starts at the parser default `true` and is overwritten
by `ApplyConfigConsts`). -/
def constRef : NodeRefC := ⟨"gold", .constName "COST", .bool true, false, false⟩

/-- A node gated on the COST constant. -/
def constNode : NodeDataC := ⟨"N", [constRef], []⟩

/-- Per-requirement satisfaction as claim C7 states it: a boolean amount
compares the status with the required boolean (JS loose equality); a
numeric amount compares the status against the amount scaled by the
consume multiplier and rounded; the add multiplier and the requirement's
`consume` flag play no role.  (With a NaN amount the comparison is
vacuously satisfied.) -/
def reqSatisfiedSpec (s : TraversalState) (req : NodeRef) : Bool :=
  match req.amount with
  | .bool b => looseEqBool (s.status req.id) b
  | .num q => !(jsLt (s.status req.id) (some (mulRound q (s.consMult req.id))))
  | .nan => true

/-- The property claim C8 asserts of `ChangeStatus` at a numeric current
status `old` and numeric amount `a`, together with the boolean-amount
clauses. -/
def ChangeStatusClaim (s : TraversalState) (id : String) (old a : Rat) : Prop :=
  ((changeStatus s id (.num a)).2.status id = some (.num (max 0 (old + a)))) ∧
  (0 ≤ max 0 (old + a)) ∧
  (max 0 (old + a) < old →
     (changeStatus s id (.num a)).1 = .MODIFIED ∧
     (changeStatus s id (.num a)).2.consumedTokens id
        = some ((s.consumedTokens id).getD 0 + (old - max 0 (old + a))) ∧
     (changeStatus s id (.num a)).2.addedTokens = s.addedTokens) ∧
  (old < max 0 (old + a) →
     (changeStatus s id (.num a)).1 = .MODIFIED ∧
     (changeStatus s id (.num a)).2.addedTokens id
        = some ((s.addedTokens id).getD 0 + (max 0 (old + a) - old)) ∧
     (changeStatus s id (.num a)).2.consumedTokens = s.consumedTokens) ∧
  (max 0 (old + a) = old →
     (changeStatus s id (.num a)).1 = .NO_CHANGE ∧
     (changeStatus s id (.num a)).2.addedTokens = s.addedTokens ∧
     (changeStatus s id (.num a)).2.consumedTokens = s.consumedTokens) ∧
  (∀ b : Bool,
     (looseEqBool (s.status id) b = true → changeStatus s id (.bool b) = (.NO_CHANGE, s)) ∧
     (looseEqBool (s.status id) b = false →
        (changeStatus s id (.bool b)).2.status id = some (.bool b) ∧
        (changeStatus s id (.bool b)).1
          = (if b then ApplyResult.NEW_ASSET else ApplyResult.REMOVED_ASSET)))

/-- A generator work unit that needs three resumptions to finish: two
bare yields, then done. -/
def genUnit3 : WorkUnit := ⟨7, "g", .gen [none, none], .SCHEDULED⟩

/-- A plain-function work unit that returns CONTINUE, then NEXT_FRAME,
then (exhausted) a falsy value. -/
def fnUnit3 : WorkUnit := ⟨8, "f", .fn [⟨.CONTINUE, none⟩, ⟨.NEXT_FRAME, none⟩], .SCHEDULED⟩

/-- Work unit X of the mid-tick interruption scenario: on its first
resumption it priority-inserts Z (which finishes on its first call) and
returns CONTINUE; it needs two more resumptions to finish. -/
def unitX9 : WorkUnit := ⟨1, "X", .fn [⟨.CONTINUE, some ⟨99, "Z", []⟩⟩, ⟨.CONTINUE, none⟩], .SCHEDULED⟩

/-- Work unit Y of the mid-tick interruption scenario, scheduled behind
X. -/
def unitY9 : WorkUnit := ⟨2, "Y", .fn [], .SCHEDULED⟩

/-- A plain-function method that returns CONTINUE `n` times, performs no
queue effects, and then finishes: the shape of an arbitrary terminating,
budget-oblivious work unit. -/
def contMethod (n : Nat) : TaskMethod := .fn (List.replicate n ⟨.CONTINUE, none⟩)

/-- The queue of the scheduler-ordering scenario: X scheduled, then Y
scheduled, then Z priority-inserted, with arbitrary unit bodies. -/
def scheduleXYZ (nx ny nz : Nat) : TaskQueueState :=
  priorityTask (scheduleTask (scheduleTask emptyQueue (contMethod nx) "X") (contMethod ny) "Y")
    (contMethod nz) "Z"

/-- A freshly reset aggregator: no counters, no samples. -/
def freshAggregate : AggregateState := ⟨[], [], [], [], [], [], 0, 0⟩

/-- Prepend a pending run of `k` copies of `v` to a run list, merging
with the head run when it has the same value (specification-side helper
for the mode claim). -/
def extendFirstRun (v : Rat) (k : Nat) (rs : List (Rat × Nat)) : List (Rat × Nat) :=
  match rs with
  | (w, c) :: rest => if w = v then (v, k + c) :: rest else (v, k) :: (w, c) :: rest
  | [] => [(v, k)]

/-! Claim theorems. -/

/-- Pointwise-equal predicates give equal `all`. -/
theorem all_congr_mem {α : Type} {l : List α} {p q : α → Bool}
    (h : ∀ a ∈ l, p a = q a) : l.all p = l.all q := by
  induction l with
  | nil => rfl
  | cons x xs ih =>
      simp only [List.all_cons, h x (by simp)]
      rw [ih (fun a ha => h a (by simp [ha]))]

/-- The Bool comparison used by `valueSort` is transitive. -/
theorem ratLeBool_trans (a b c : Rat) :
    (fun x y : Rat => (decide (x ≤ y))) a b = true →
    (fun x y : Rat => (decide (x ≤ y))) b c = true →
    (fun x y : Rat => (decide (x ≤ y))) a c = true := by
  simp only [decide_eq_true_eq]
  exact le_trans

/-- The Bool comparison used by `valueSort` is total. -/
theorem ratLeBool_total (a b : Rat) :
    ((fun x y : Rat => (decide (x ≤ y))) a b || (fun x y : Rat => (decide (x ≤ y))) b a) = true := by
  simp only [Bool.or_eq_true, decide_eq_true_eq]
  exact le_total a b

/-- The JS sort of the source and the insertion sort of the
specification-side definitions agree: both are the ascending reordering. -/
theorem valueSort_eq_insertionSort (l : List Rat) :
    valueSort l = List.insertionSort (· ≤ ·) l := by
  apply List.eq_of_perm_of_sorted (r := fun a b : Rat => a ≤ b)
  · exact (List.mergeSort_perm l _).trans (List.perm_insertionSort _ l).symm
  · have h := List.sorted_mergeSort ratLeBool_trans ratLeBool_total l
    simpa [List.Sorted] using h
  · exact List.sorted_insertionSort _ l


/-- C1 (counterexample).  In the two-node scenario the claim asserts that
the returned step's changes list contains both A and B; after `Reset`
(available = A, hidden = B) the first `Step` records exactly one change,
for B (the result grant) — the root A is never added to `changes` (the
`nodeId != rootId && hadStep` guard excludes the root, and the root visit
creates the step rather than folding into one), so the claim is false at
this input. -/
theorem claim1_changes_counterexample :
    sAB0.available = ["A"] ∧ sAB0.hidden = ["B"] ∧
    stepChangeIds sAB1.1 = ["B"] ∧ ¬ ("A" ∈ stepChangeIds sAB1.1) :=
  ⟨rfl, rfl, rfl, by with_unfolding_all decide⟩

/-- C1 (amended).  For the two-node graph of the scenario: `Reset` yields
available = A and hidden = B; the first `Step` visits A, the result grants
B = true as a new asset, B is queued and visited within the same step
(both end up visited with a single path entry), the returned step has
trigger id A and its changes list contains exactly the one entry for B,
available and hidden become empty, and the next `Step` returns `None`. -/
theorem claim1_scenario :
    sAB0.available = ["A"] ∧ sAB0.hidden = ["B"] ∧ sAB0.visited = [] ∧
    sAB1.1 = some ⟨"A", [⟨"B", .bool true, false⟩], []⟩ ∧
    sAB1.2.visited = ["A", "B"] ∧ sAB1.2.available = [] ∧ sAB1.2.hidden = [] ∧
    sAB1.2.path = [⟨"A", [⟨"B", .bool true, false⟩], []⟩] ∧
    (performStep cfgAB sAB1.2 []).1 = none :=
  ⟨rfl, rfl, rfl, rfl, rfl, rfl, rfl, rfl, rfl⟩

/-- C2 (code evaluation at the failing input).  `ApplyConfigConsts` does
compute the concrete amount (COST resolves to 5, an unresolvable constant
resolves to true), but `SatisfiesRequirements` as written dispatches on
the raw `amount` field: with gold at 0 and a requirement of COST = 5 the
string amount takes the numeric branch, the string arithmetic yields NaN,
the `<` comparison is false and the requirement is reported satisfied —
whereas the check the claim describes (dispatching on `computedAmount`)
reports it unsatisfied. -/
theorem claim2_engine_ignores_computedAmount :
    (applyConfigConstsRef constTable constRef).computedAmount = .num 5 ∧
    computeValue constTable (.constName "MISSING") = .bool true ∧
    satisfiesRequirementsRaw constState constNode = true ∧
    satisfiesRequirementsComputed constState (applyConfigConstsNode constTable constNode) = false :=
  ⟨rfl, rfl, rfl, by with_unfolding_all decide⟩

/-- C3 (code evaluation at the failing input).  `FlushTop` on a generator
unit that needs three resumptions resumes it exactly once and still marks
it finished, removes it and fires its completion callback (first
conjunct), although `Tick` — the queue's own protocol for the same unit —
drains it with three resumptions (second conjunct); a plain-function unit
is, as the claim says, fully drained with the budget (`NEXT_FRAME`)
ignored (third conjunct). -/
theorem claim3_flushTop_generator :
    flushTop [genUnit3] [] = ([], [.Resumed "g", .Completed "g"]) ∧
    tickRun 12 [genUnit3] []
      = ([], [.Resumed "g", .Resumed "g", .Resumed "g", .Completed "g"]) ∧
    flushTop [fnUnit3] []
      = ([], [.Resumed "f", .Resumed "f", .Resumed "f", .Completed "f"]) :=
  ⟨rfl, rfl, rfl⟩

/-- C9 (counterexample).  The claim asserts that once X is interrupted by
the priority insertion of Z, Tick stops resuming X for that tick.  In the
concrete run below Z is inserted during X's first resumption, Z runs and
completes, and the same `Tick` call then resumes X twice more (the log
records three resumptions of X), refuting the "for that tick" clause. -/
theorem claim9_interrupt_counterexample :
    (tickRun 14 [unitX9, unitY9] []).2
      = [.Resumed "X", .Resumed "Z", .Completed "Z", .Resumed "X", .Resumed "X",
         .Completed "X", .Resumed "Y", .Completed "Y"] ∧
    ((tickRun 14 [unitX9, unitY9] []).2.count (.Resumed "X") = 3) :=
  ⟨rfl, by decide⟩

/-- C4.  For every counter processed with sample base `base`, the value
list is zero-padded on the front up to length `base` and sorted
ascending, and the median is the element at index `floor(length / 2)` of
that list; in particular with base 5 and recorded values `[2, 2, 5]` the
list becomes `[0, 0, 2, 2, 5]` and the median is 2. -/
theorem claim4_median_zero_padding :
    (∀ (base : Nat) (c : Counter),
        (averageOne base c).1.values = paddedSorted base c.values ∧
        (averageOne base c).2.median = medianSpec base c.values) ∧
    (averageOne 5 ⟨9, [2, 2, 5]⟩).1.values = [0, 0, 2, 2, 5] ∧
    (averageOne 5 ⟨9, [2, 2, 5]⟩).2.median = 2 := by
  refine ⟨fun base c => ⟨?_, ?_⟩, ?_, ?_⟩
  · simp [averageOne, paddedSorted, valueSort_eq_insertionSort]
  · simp [averageOne, medianSpec, paddedSorted, valueSort_eq_insertionSort]
  · with_unfolding_all decide
  · with_unfolding_all decide

/-- With `forceConsume` set, `ResolveValue` scales a number by the
consume multiplier whatever its sign, passes booleans through, and keeps
NaN. -/
theorem resolveValue_force (s : TraversalState) (id : String) (a : Amount) :
    resolveValue s id a true
      = (match a with
         | .bool b => .bool b
         | .num q => mulRound q (s.consMult id)
         | .nan => .nan) := by
  cases a with
  | bool b => rfl
  | num q => simp [resolveValue]
  | nan => cases h : s.consMult id <;> simp [resolveValue, h]

/-- Comparing against NaN is always false. -/
theorem jsLt_nan (x : Option Amount) : jsLt x (some .nan) = false := by
  unfold jsLt
  cases toNum x <;> rfl

/-- C7.  Requirement satisfaction checks each requirement exactly as the
claim says: a boolean amount compares the status to the required boolean
(JS equality, which on a boolean status is plain equality — last
conjunct); a numeric amount `a` on target `t` compares `status[t]`
against `round(a * consumeMultiplier[t])` — the threshold never involves
the add multiplier (second conjunct) and is unaffected by the
requirement's `consume` flag (third conjunct). -/
theorem claim7_requirement_scaling :
    (∀ (s : TraversalState) (node : NodeData),
        satisfiesRequirements s node = node.requires.all (reqSatisfiedSpec s)) ∧
    (∀ (s : TraversalState) (node : NodeData) (f : String → Option Rat),
        satisfiesRequirements { s with addMult := f } node = satisfiesRequirements s node) ∧
    (∀ (s : TraversalState) (node : NodeData) (g : NodeRef → Bool),
        satisfiesRequirements s
          { node with requires := node.requires.map (fun r => { r with consume := g r }) }
          = satisfiesRequirements s node) ∧
    (∀ (x b : Bool), looseEqBool (some (.bool x)) b = (x == b)) := by
  have key : ∀ (s : TraversalState) (node : NodeData),
      satisfiesRequirements s node = node.requires.all (reqSatisfiedSpec s) := by
    intro s node
    unfold satisfiesRequirements
    refine all_congr_mem (fun req _ => ?_)
    cases ha : req.amount with
    | bool b => simp [reqSatisfiedSpec, ha]
    | num q => simp [reqSatisfiedSpec, ha, resolveValue_force]
    | nan => simp [reqSatisfiedSpec, ha, resolveValue_force, jsLt_nan]
  have spec_add : ∀ (s : TraversalState) (f : String → Option Rat) (req : NodeRef),
      reqSatisfiedSpec { s with addMult := f } req = reqSatisfiedSpec s req := by
    intro s f req
    cases ha : req.amount <;> simp [reqSatisfiedSpec, ha]
  have spec_consume : ∀ (s : TraversalState) (g : NodeRef → Bool) (r : NodeRef),
      reqSatisfiedSpec s { r with consume := g r } = reqSatisfiedSpec s r := by
    intro s g r
    cases ha : r.amount <;> simp [reqSatisfiedSpec, ha]
  refine ⟨key, ?_, ?_, ?_⟩
  · intro s node f
    rw [key, key]
    exact all_congr_mem (fun req _ => spec_add s f req)
  · intro s node g
    rw [key, key]
    show (node.requires.map fun r => { r with consume := g r }).all _ = _
    rw [List.all_map]
    exact all_congr_mem (fun req _ => spec_consume s g req)
  · intro x b
    rfl

/-- IncrementProperty evaluated at its own key. -/
theorem incrProp_self (f : String → Option Rat) (id : String) (d : Rat) :
    incrProp f id d id = some ((f id).getD 0 + d) := by
  simp [incrProp]

/-- ChangeStatus at a numeric current status and numeric amount, in
closed form: the status is set to the clamped sum, and exactly one of the
token totals is bumped by the actual delta, depending on its sign. -/
theorem changeStatus_num_eq (s : TraversalState) (id : String) (old a : Rat)
    (h : s.status id = some (.num old)) :
    changeStatus s id (.num a)
      = (if max 0 (old + a) < old then ApplyResult.MODIFIED
         else if old < max 0 (old + a) then ApplyResult.MODIFIED else ApplyResult.NO_CHANGE,
         { s with
            status := fun x => if x = id then some (.num (max 0 (old + a))) else s.status x,
            consumedTokens :=
              if max 0 (old + a) < old then incrProp s.consumedTokens id (old - max 0 (old + a))
              else s.consumedTokens,
            addedTokens :=
              if old < max 0 (old + a) then incrProp s.addedTokens id (max 0 (old + a) - old)
              else s.addedTokens }) := by
  unfold changeStatus
  rw [h]
  show (if max 0 (old + a) < old then _ else _) = _
  split_ifs <;> try rfl
  case _ h1 h2 => exact absurd (h1.trans h2) (lt_irrefl _)

/-- C8.  With a numeric current status `old` and numeric amount `a`,
`ChangeStatus` stores exactly `max 0 (old + a)` (so the stored numeric
status is never negative), accumulates the actual delta into
`consumedTokens` on a decrease and into `addedTokens` on an increase,
returning `MODIFIED` in those cases and `NO_CHANGE` when the clamped
value is unchanged; with a boolean amount it toggles the status only on
(JS-)change and returns `NEW_ASSET` / `REMOVED_ASSET` / `NO_CHANGE`
accordingly. -/
theorem claim8_changeStatus (s : TraversalState) (id : String) (old a : Rat)
    (h : s.status id = some (.num old)) : ChangeStatusClaim s id old a := by
  have hb : ∀ b : Bool,
      (looseEqBool (s.status id) b = true → changeStatus s id (.bool b) = (.NO_CHANGE, s)) ∧
      (looseEqBool (s.status id) b = false →
        (changeStatus s id (.bool b)).2.status id = some (.bool b) ∧
        (changeStatus s id (.bool b)).1
          = (if b then ApplyResult.NEW_ASSET else ApplyResult.REMOVED_ASSET)) := by
    intro b
    constructor
    · intro hq
      simp [changeStatus, hq]
    · intro hq
      simp [changeStatus, hq]
  have hc := changeStatus_num_eq s id old a h
  unfold ChangeStatusClaim
  rw [hc]
  refine ⟨by simp only [if_true, if_pos rfl], le_max_left 0 (old + a), ?_, ?_, ?_, hb⟩
  · intro hlt
    have hne : ¬ old < max 0 (old + a) := fun hgt => absurd (hlt.trans hgt) (lt_irrefl _)
    simp only [if_pos hlt, if_neg hne, incrProp_self]
    simp
  · intro hgt
    have hne : ¬ max 0 (old + a) < old := fun hlt => absurd (hlt.trans hgt) (lt_irrefl _)
    simp only [if_pos hgt, if_neg hne, incrProp_self]
    simp
  · intro heq
    have hne1 : ¬ max 0 (old + a) < old := by rw [heq]; exact lt_irrefl old
    have hne2 : ¬ old < max 0 (old + a) := by rw [heq]; exact lt_irrefl old
    simp only [if_neg hne1, if_neg hne2]
    simp

/-- Witness for C8: the gold token at 5 with amount -7 clamps to 0,
consuming 5. -/
theorem claim8_changeStatus_witness :
    testState.status "gold" = some (.num 5) ∧ ChangeStatusClaim testState "gold" 5 (-7) :=
  ⟨rfl, claim8_changeStatus testState "gold" 5 (-7) rfl⟩

/-- Unfold one step of the first-longest-run fold. -/
theorem pick_cons (init : Option Rat × Nat) (r : Rat × Nat) (rest : List (Rat × Nat)) :
    pickFirstLongest init (r :: rest)
      = pickFirstLongest (if init.2 < r.2 then (some r.1, r.2) else init) rest := rfl

/-- The fold over an empty run list returns its seed. -/
theorem pick_nil (init : Option Rat × Nat) : pickFirstLongest init [] = init := rfl

/-- Runs of a cons: extend or open the first run. -/
theorem runs_cons (x : Rat) (xs : List Rat) :
    runs (x :: xs) = extendFirstRun x 1 (runs xs) := by
  have he : runs (x :: xs)
      = (match runs xs with
         | [] => [(x, 1)]
         | (v, c) :: rest => if v = x then (v, c + 1) :: rest else (x, 1) :: (v, c) :: rest) := rfl
  rw [he]
  cases h : runs xs with
  | nil => rfl
  | cons p rest =>
      obtain ⟨w, c⟩ := p
      by_cases hw : w = x
      · subst hw
        simp [extendFirstRun, Nat.add_comm]
      · simp [extendFirstRun, hw]

/-- Extending by one copy and then by `k` more merges into one run. -/
theorem extendFirstRun_merge (x : Rat) (k : Nat) (rs : List (Rat × Nat)) :
    extendFirstRun x k (extendFirstRun x 1 rs) = extendFirstRun x (k + 1) rs := by
  cases rs with
  | nil => simp [extendFirstRun, Nat.add_comm]
  | cons p rest =>
      obtain ⟨w, c⟩ := p
      by_cases hw : w = x
      · subst hw
        simp only [extendFirstRun, if_pos rfl]
        simp [Nat.add_comm, Nat.add_assoc, Nat.add_left_comm]
      · simp [extendFirstRun, hw]

/-- An extended run list starts with a run of `v` of length at least `k`. -/
theorem extendFirstRun_shape (v : Rat) (k : Nat) (rs : List (Rat × Nat)) :
    ∃ K rest, extendFirstRun v k rs = (v, K) :: rest ∧ k ≤ K := by
  cases rs with
  | nil => exact ⟨k, [], rfl, le_refl k⟩
  | cons p rest =>
      obtain ⟨w, c⟩ := p
      by_cases hw : w = v
      · subst hw
        exact ⟨k + c, rest, by simp [extendFirstRun], Nat.le_add_right k c⟩
      · exact ⟨k, (w, c) :: rest, by simp [extendFirstRun, hw], le_refl k⟩

/-- Starting the fold on the head run with any seed it beats (or equals, having produced it) is the same as seeding with that head run. -/
theorem pick_start (x : Rat) (K : Nat) (rest : List (Rat × Nat)) (bv : Option Rat) (bk : Nat)
    (h : bk < K ∨ (bv = some x ∧ bk = K)) :
    (pickFirstLongest (bv, bk) ((x, K) :: rest)).1
      = (pickFirstLongest (some x, K) rest).1 := by
  rw [pick_cons]
  rcases h with h | ⟨hv, hk⟩
  · simp [h]
  · subst hv hk
    simp

/-- Unfold one step of the `FindMode` scan. -/
theorem findModeAux_cons (bv : Option Rat) (bk : Nat) (cv : Option Rat) (k : Nat)
    (x : Rat) (xs : List Rat) :
    findModeAux bv bk cv k (x :: xs)
      = (let p := if cv = some x then (cv, k + 1) else (some x, 1)
         if bk < p.2 then findModeAux (some x) p.2 p.1 p.2 xs
         else findModeAux bv bk p.1 p.2 xs) := rfl

/-- A `FindMode` scan that is `k` values into a run of `v`, with best-so-far `(bv, bk)`, computes the first-longest-run fold of the remaining runs. -/
theorem findModeAux_spec : ∀ (xs : List Rat) (v : Rat) (k : Nat) (bv : Option Rat) (bk : Nat),
    1 ≤ k → k ≤ bk →
    findModeAux bv bk (some v) k xs
      = (pickFirstLongest (bv, bk) (extendFirstRun v k (runs xs))).1 := by
  intro xs
  induction xs with
  | nil =>
      intro v k bv bk hk hbk
      have hn : ¬ bk < k := not_lt.mpr hbk
      show bv = _
      simp [runs, extendFirstRun, pick_cons, pick_nil, hn]
  | cons x xs ih =>
      intro v k bv bk hk hbk
      rw [runs_cons]
      by_cases hvx : v = x
      · subst hvx
        rw [extendFirstRun_merge]
        obtain ⟨K, rest, hEq, hK⟩ := extendFirstRun_shape v (k + 1) (runs xs)
        rw [findModeAux_cons]
        simp only [eq_self_iff_true, if_true]
        by_cases hbk1 : bk < k + 1
        · rw [if_pos hbk1]
          rw [ih v (k + 1) (some v) (k + 1) (Nat.le_succ_of_le hk) (le_refl _)]
          rw [hEq]
          have hd : k + 1 < K ∨ ((some v : Option Rat) = some v ∧ k + 1 = K) := by
            rcases Nat.lt_or_ge (k + 1) K with h | h
            · exact Or.inl h
            · exact Or.inr ⟨rfl, by omega⟩
          rw [pick_start v K rest (some v) (k + 1) hd]
          rw [pick_start v K rest bv bk (Or.inl (by omega))]
        · rw [if_neg hbk1]
          exact ih v (k + 1) bv bk (Nat.le_succ_of_le hk) (not_lt.mp hbk1)
      · have hcv : ((some v : Option Rat) = some x) = False := by
          simp [hvx]
        rw [findModeAux_cons]
        simp only [hcv, if_false]
        have hbk1 : ¬ bk < 1 := by omega
        simp only [if_neg hbk1]
        rw [ih x 1 bv bk (le_refl 1) (by omega)]
        obtain ⟨K, rest, hEq, hK⟩ := extendFirstRun_shape x 1 (runs xs)
        rw [hEq]
        have hshape : extendFirstRun v k ((x, K) :: rest) = (v, k) :: (x, K) :: rest := by
          simp [extendFirstRun, Ne.symm hvx]
        rw [hshape]
        have hnk : ¬ bk < k := not_lt.mpr hbk
        simp [pick_cons, hnk]

/-- FindMode computes the value of the first maximal-length run. -/
theorem findMode_eq_firstLongestRun (l : List Rat) : findMode l = firstLongestRun l := by
  cases l with
  | nil => rfl
  | cons x xs =>
      unfold findMode firstLongestRun
      rw [findModeAux_cons]
      have hcv : ((none : Option Rat) = some x) = False := by simp
      simp only [hcv, if_false]
      have h01 : (0 : Nat) < 1 := Nat.zero_lt_one
      simp only [if_pos h01]
      rw [findModeAux_spec xs x 1 (some x) 1 (le_refl 1) (le_refl 1)]
      rw [runs_cons]
      obtain ⟨K, rest, hEq, hK⟩ := extendFirstRun_shape x 1 (runs xs)
      rw [hEq]
      have hd : 1 < K ∨ ((some x : Option Rat) = some x ∧ 1 = K) := by
        rcases Nat.lt_or_ge 1 K with h | h
        · exact Or.inl h
        · exact Or.inr ⟨rfl, by omega⟩
      rw [pick_start x K rest (some x) 1 hd]
      rw [pick_start x K rest none 0 (Or.inl (by omega))]

/-- The fold never decreases the tracked run length. -/
theorem pick_le_snd : ∀ (rs : List (Rat × Nat)) (init : Option Rat × Nat),
    init.2 ≤ (pickFirstLongest init rs).2 := by
  intro rs
  induction rs with
  | nil => intro init; exact le_refl _
  | cons r rest ih =>
      intro init
      rw [pick_cons]
      by_cases h : init.2 < r.2
      · simp only [if_pos h]
        exact le_trans (le_of_lt h) (ih (some r.1, r.2))
      · simp only [if_neg h]
        exact ih init

/-- Every run length is dominated by the folded maximum. -/
theorem pick_mem_le : ∀ (rs : List (Rat × Nat)) (init : Option Rat × Nat) (p : Rat × Nat),
    p ∈ rs → p.2 ≤ (pickFirstLongest init rs).2 := by
  intro rs
  induction rs with
  | nil => intro init p hp; cases hp
  | cons r rest ih =>
      intro init p hp
      rw [pick_cons]
      rcases List.mem_cons.mp hp with h | h
      · subst h
        by_cases hc : init.2 < p.2
        · simp only [if_pos hc]
          exact pick_le_snd rest (some p.1, p.2)
        · simp only [if_neg hc]
          exact le_trans (not_lt.mp hc) (pick_le_snd rest init)
      · exact ih _ p h

/-- C5.  `FindMode` on any value list returns the value of the longest
run found by its single scan, with ties between equally long runs broken
in favor of the first-encountered run (the fold only replaces the best
run on a strictly longer one); the chosen length dominates every run
(second conjunct); in particular the sorted input `[1, 1, 2, 2]` yields
mode 1.  On a sorted-ascending list the first maximal run is also the
smallest-valued one, since equal values are adjacent. -/
theorem claim5_mode_first_longest_run :
    (∀ l : List Rat, findMode l = firstLongestRun l) ∧
    (∀ (l : List Rat) (p : Rat × Nat), p ∈ runs l →
        p.2 ≤ (pickFirstLongest (none, 0) (runs l)).2) ∧
    findMode [1, 1, 2, 2] = some 1 ∧ firstLongestRun [1, 1, 2, 2] = some 1 := by
  refine ⟨findMode_eq_firstLongestRun, fun l p hp => pick_mem_le _ _ p hp, ?_, ?_⟩
  · with_unfolding_all decide
  · with_unfolding_all decide

/-- Updating the head unit by its own id. -/
theorem updateUnit_cons_id (uid : Nat) (nm : String) (m : TaskMethod) (st : TaskStatus)
    (rest : List WorkUnit) (f : WorkUnit → WorkUnit) :
    updateUnit (⟨uid, nm, m, st⟩ :: rest) uid f = f ⟨uid, nm, m, st⟩ :: rest := by
  simp [updateUnit]

/-- Finding the head unit by its own id. -/
theorem find?_cons_self (u : WorkUnit) (rest : List WorkUnit) :
    (u :: rest).find? (fun w => w.id == u.id) = some u := by
  simp [List.find?]

/-- Removing the head unit by its own id. -/
theorem removeUnit_cons_id (uid : Nat) (nm : String) (m : TaskMethod) (st : TaskStatus)
    (rest : List WorkUnit) :
    removeUnit ((⟨uid, nm, m, st⟩ : WorkUnit) :: rest) uid = rest := by
  simp [removeUnit, List.eraseP_cons]

/-- Status of the head unit by its own id. -/
theorem statusOfUnit_cons_id (uid : Nat) (nm : String) (m : TaskMethod) (st : TaskStatus)
    (rest : List WorkUnit) :
    statusOfUnit ((⟨uid, nm, m, st⟩ : WorkUnit) :: rest) uid = st := by
  simp [statusOfUnit, List.find?]

/-- The inner Tick loop on an executing head unit that returns CONTINUE `n` times and performs no queue effects: it is resumed `n + 1` times (the last call returns a falsy value), completed, removed, and the outer loop continues on the remaining queue with the remaining fuel. -/
theorem tickAux_cont_inner : ∀ (n : Nat) (k : Nat) (uid : Nat) (nm : String)
    (rest : List WorkUnit) (log : List QueueEvent),
    tickAux (n + 1 + k) (some uid)
        (⟨uid, nm, .fn (List.replicate n ⟨.CONTINUE, none⟩), .EXECUTING⟩ :: rest) log
      = tickAux k none rest
          (log ++ List.replicate (n + 1) (.Resumed nm) ++ [.Completed nm]) := by
  intro n
  induction n with
  | zero =>
      intro k uid nm rest log
      rw [show (0 : Nat) + 1 + k = k + 1 from by omega]
      rw [tickAux]
      rw [show List.replicate 0 (⟨.CONTINUE, none⟩ : FnStep) = [] from rfl]
      rw [show ((⟨uid, nm, .fn [], .EXECUTING⟩ : WorkUnit) :: rest).find? (fun w => w.id == uid)
            = some ⟨uid, nm, .fn [], .EXECUTING⟩ from find?_cons_self _ rest]
      dsimp only
      rw [updateUnit_cons_id, updateUnit_cons_id, removeUnit_cons_id]
      simp
  | succ n ih =>
      intro k uid nm rest log
      rw [show n + 1 + 1 + k = (n + 1 + k) + 1 from by omega]
      rw [tickAux]
      rw [show List.replicate (n + 1) (⟨.CONTINUE, none⟩ : FnStep)
            = ⟨.CONTINUE, none⟩ :: List.replicate n ⟨.CONTINUE, none⟩ from List.replicate_succ _ _]
      rw [show ((⟨uid, nm, .fn (⟨.CONTINUE, none⟩ :: List.replicate n ⟨.CONTINUE, none⟩),
              .EXECUTING⟩ : WorkUnit) :: rest).find? (fun w => w.id == uid)
            = some ⟨uid, nm, .fn (⟨.CONTINUE, none⟩ :: List.replicate n ⟨.CONTINUE, none⟩),
                .EXECUTING⟩ from find?_cons_self _ rest]
      dsimp only
      rw [updateUnit_cons_id]
      rw [statusOfUnit_cons_id]
      dsimp only
      rw [ih]
      simp [List.replicate_succ, List.append_assoc]

/-- One outer Tick iteration on such a unit, from any starting status. -/
theorem tickAux_cont_outer (n k : Nat) (uid : Nat) (nm : String) (st : TaskStatus)
    (rest : List WorkUnit) (log : List QueueEvent) :
    tickAux (n + 2 + k) none
        (⟨uid, nm, .fn (List.replicate n ⟨.CONTINUE, none⟩), st⟩ :: rest) log
      = tickAux k none rest
          (log ++ List.replicate (n + 1) (.Resumed nm) ++ [.Completed nm]) := by
  rw [show n + 2 + k = (n + 1 + k) + 1 from by omega]
  rw [tickAux]
  exact tickAux_cont_inner n k uid nm rest log

/-- Completions distribute over log concatenation. -/
theorem completions_append (a b : List QueueEvent) :
    completions (a ++ b) = completions a ++ completions b := by
  simp [completions]

/-- Resumption events complete nothing. -/
theorem completions_replicate_resumed (m : Nat) (nm : String) :
    completions (List.replicate m (.Resumed nm)) = [] := by
  induction m with
  | zero => rfl
  | succ m ih =>
      simp only [List.replicate_succ, completions, List.filterMap_cons] at ih ⊢
      exact ih

/-- Scheduling X then Y then priority-inserting Z and ticking with enough budget completes the units in the order Z, X, Y, whatever the (terminating, budget-oblivious, effect-free) unit bodies are. -/
theorem claim9_partA (nx ny nz : Nat) :
    completions (tickRun (nz + nx + ny + 6) (scheduleXYZ nx ny nz).workUnits []).2
      = ["Z", "X", "Y"] := by
  have hq : (scheduleXYZ nx ny nz).workUnits
      = [⟨3, "Z", contMethod nz, .SCHEDULED⟩, ⟨1, "X", contMethod nx, .SCHEDULED⟩,
         ⟨2, "Y", contMethod ny, .SCHEDULED⟩] := rfl
  rw [tickRun, hq]
  rw [show nz + nx + ny + 6 = nz + 2 + (nx + 2 + (ny + 2 + 0)) from by omega]
  rw [show contMethod nz = TaskMethod.fn (List.replicate nz ⟨.CONTINUE, none⟩) from rfl]
  rw [tickAux_cont_outer nz (nx + 2 + (ny + 2 + 0))]
  rw [show contMethod nx = TaskMethod.fn (List.replicate nx ⟨.CONTINUE, none⟩) from rfl]
  rw [tickAux_cont_outer nx (ny + 2 + 0)]
  rw [show contMethod ny = TaskMethod.fn (List.replicate ny ⟨.CONTINUE, none⟩) from rfl]
  rw [tickAux_cont_outer ny 0]
  rw [show tickAux 0 none ([] : List WorkUnit) _ = ([], _) from rfl]
  simp [completions_append, completions_replicate_resumed, completions]

/-- C9 (amended).  Scheduling X, then Y, then priority-inserting Z yields
execution order Z, X, Y under Tick, for arbitrary terminating
budget-oblivious unit bodies (first conjunct).  If X is in EXECUTING
status when Z is priority-inserted, X's status becomes INTERRUPTED before
Z begins executing and X stays in the queue right behind Z (second
conjunct); Tick then stops the current resumption run of X — in the
concrete mid-tick scenario X is resumed once, Z runs and completes before
X is touched again (third conjunct) — but X is not removed and may be
resumed again and complete within the same Tick call once Z is done,
budget permitting (fourth conjunct). -/
theorem claim9_scheduler_amended :
    (∀ nx ny nz : Nat,
        completions (tickRun (nz + nx + ny + 6) (scheduleXYZ nx ny nz).workUnits []).2
          = ["Z", "X", "Y"]) ∧
    (∀ (u : WorkUnit) (rest : List WorkUnit) (p : WorkUnit), u.status = .EXECUTING →
        priorityInsert (u :: rest) p = p :: { u with status := .INTERRUPTED } :: rest) ∧
    ((tickRun 14 [unitX9, unitY9] []).2.take 4
       = [.Resumed "X", .Resumed "Z", .Completed "Z", .Resumed "X"]) ∧
    ((.Completed "X") ∈ (tickRun 14 [unitX9, unitY9] []).2) := by
  refine ⟨claim9_partA, ?_, rfl, by decide⟩
  intro u rest p h
  simp [priorityInsert, h]

/-- Witness for C9 (amended) at a concrete executing head. -/
theorem claim9_scheduler_amended_witness :
    ((⟨1, "X", .fn [], .EXECUTING⟩ : WorkUnit).status = .EXECUTING) ∧
    priorityInsert [⟨1, "X", .fn [], .EXECUTING⟩] ⟨3, "Z", .fn [], .SCHEDULED⟩
      = [⟨3, "Z", .fn [], .SCHEDULED⟩, ⟨1, "X", .fn [], .INTERRUPTED⟩] :=
  ⟨rfl, claim9_scheduler_amended.2.1 ⟨1, "X", .fn [], .EXECUTING⟩ [] ⟨3, "Z", .fn [], .SCHEDULED⟩ rfl⟩

/-- C10.  `AggregateProcess` with no accumulated samples returns the JS
`null` (here `none`) and leaves the aggregator untouched; it never
produces statistics over a zero trial base. -/
theorem claim10_process_no_samples (agg : AggregateState) (h : agg.sampleCount = 0) :
    aggregateProcess agg = (none, agg) := by
  unfold aggregateProcess
  rw [if_pos h]

/-- Witness for C10 at a freshly reset aggregator. -/
theorem claim10_process_no_samples_witness :
    freshAggregate.sampleCount = 0 ∧ aggregateProcess freshAggregate = (none, freshAggregate) :=
  ⟨rfl, claim10_process_no_samples freshAggregate rfl⟩


/-! Claim C6: the partition invariant.  The lemmas below follow the call
chain of `TraversalPerformStep` bottom-up: each helper preserves the
permutation `visited ++ available ++ hidden ~ nodeIds`, and the claim
theorem assembles the pairwise-disjointness and coverage statements from
that permutation and the `Nodup` of well-formed node ids. -/

theorem fastRemoveAt_cons_succ {α : Type} (x : α) (xs : List α) (j : Nat) (h : j < xs.length) :
    fastRemoveAt (x :: xs) (j + 1) = x :: fastRemoveAt xs j := by
  unfold fastRemoveAt
  by_cases he : j + 1 = xs.length
  · have he2 : j + 1 + 1 = (x :: xs).length := by simp [he]
    rw [if_pos he2, if_pos he]
    cases xs with
    | nil => simp at h
    | cons y ys => simp [List.dropLast_cons₂]
  · have he2 : ¬ (j + 1 + 1 = (x :: xs).length) := by simp [he]
    rw [if_neg he2, if_neg he]
    cases xs with
    | nil => simp at h
    | cons y ys =>
        simp only [List.getLast?_cons_cons]
        cases hl : (y :: ys).getLast? with
        | none => simp at hl
        | some lastv =>
            simp only [List.set_cons_succ]
            have : (x :: (y :: ys).set j lastv).dropLast = x :: ((y :: ys).set j lastv).dropLast := by
              cases hset : (y :: ys).set j lastv with
              | nil => simp at hset
              | cons a b => rw [List.dropLast_cons₂]
            rw [this]

theorem fastRemoveAt_perm {α : Type} [DecidableEq α] :
    ∀ (l : List α) (i : Nat) (h : i < l.length), (l.get ⟨i, h⟩ :: fastRemoveAt l i).Perm l := by
  intro l
  induction l with
  | nil => intro i h; simp at h
  | cons x xs ih =>
      intro i h
      cases i with
      | zero =>
          cases xs with
          | nil => simp [fastRemoveAt]
          | cons y ys =>
              unfold fastRemoveAt
              have hne : ¬ (0 + 1 = (x :: y :: ys).length) := by simp
              rw [if_neg hne]
              cases hl : (x :: y :: ys).getLast? with
              | none => simp at hl
              | some lastv =>
                  simp only [List.set_cons_zero, List.get_cons_zero]
                  rw [List.dropLast_cons₂]
                  have hmem : (y :: ys) = (y :: ys).dropLast ++ [(y :: ys).getLast (by simp)] :=
                    (List.dropLast_append_getLast (by simp)).symm
                  have hlast : lastv = (y :: ys).getLast (by simp) := by
                    rw [List.getLast?_cons_cons] at hl
                    rw [List.getLast?_eq_getLast _ (by simp)] at hl
                    exact (Option.some_injective _ hl).symm
                  refine List.Perm.cons x ?_
                  rw [hlast]
                  conv_rhs => rw [hmem]
                  exact (List.perm_append_singleton _ _).symm
      | succ j =>
          have hj : j < xs.length := by simpa using h
          rw [fastRemoveAt_cons_succ x xs j hj]
          have hget : (x :: xs).get ⟨j + 1, h⟩ = xs.get ⟨j, hj⟩ := rfl
          rw [hget]
          exact (List.Perm.swap x (xs.get ⟨j, hj⟩) (fastRemoveAt xs j)).trans
            (List.Perm.cons x (ih j hj))



theorem fastRemove_perm {α : Type} [DecidableEq α] (l : List α) (v : α) (h : v ∈ l) :
    (v :: fastRemove l v).Perm l := by
  unfold fastRemove
  have hlt : l.indexOf v < l.length := List.indexOf_lt_length.mpr h
  rw [if_pos hlt]
  have hget : l.get ⟨l.indexOf v, hlt⟩ = v := List.indexOf_get hlt
  have := fastRemoveAt_perm l (l.indexOf v) hlt
  rwa [hget] at this

theorem fastRemove_not_mem {α : Type} [DecidableEq α] (l : List α) (v : α) (h : v ∉ l) :
    fastRemove l v = l := by
  unfold fastRemove
  have : ¬ l.indexOf v < l.length := by
    intro hlt
    exact h (List.indexOf_lt_length.mp hlt)
  rw [if_neg this]



theorem loopDown_pres {σ : Type} (P : σ → Prop) (f : Nat → σ → σ)
    (hf : ∀ i s, P s → P (f i s)) : ∀ (n : Nat) (s : σ), P s → P (loopDown f n s) := by
  intro n
  induction n with
  | zero => intro s hs; exact hs
  | succ i ih => intro s hs; exact ih (f i s) (hf i s hs)

theorem scanHiddenBody_pres (config : Configuration) (useAuto : Bool) (i : Nat) (acc : ScanAcc)
    (h : (acc.s.visited ++ acc.s.available ++ acc.s.hidden).Perm (nodeIds config) ∧
         ∀ x ∈ acc.auto, x ∈ nodeIds config) :
    ((scanHiddenBody config useAuto i acc).s.visited ++
      (scanHiddenBody config useAuto i acc).s.available ++
      (scanHiddenBody config useAuto i acc).s.hidden).Perm (nodeIds config) ∧
    ∀ x ∈ (scanHiddenBody config useAuto i acc).auto, x ∈ nodeIds config := by
  obtain ⟨hperm, hauto⟩ := h
  unfold scanHiddenBody
  cases hid : acc.s.hidden[i]? with
  | none => exact ⟨hperm, hauto⟩
  | some id =>
      dsimp only
      cases hfind : findNode config id with
      | none => exact ⟨hperm, hauto⟩
      | some node =>
          dsimp only
          by_cases hman : node.unlockType = .manual ∧ id ∉ acc.s.unlocked
          · rw [if_pos hman]
            exact ⟨hperm, hauto⟩
          · rw [if_neg hman]
            by_cases hsat : satisfiesRequirements acc.s node = true
            · rw [if_neg (not_not_intro hsat)]
              dsimp only
              obtain ⟨hi, hgeti⟩ := List.getElem?_eq_some.mp hid
              have hgeti' : acc.s.hidden.get ⟨i, hi⟩ = id := hgeti
              have hidmem : id ∈ acc.s.hidden := by
                rw [← hgeti']
                exact List.get_mem _ _ _
              have hfra : (id :: fastRemoveAt acc.s.hidden i).Perm acc.s.hidden := by
                have := fastRemoveAt_perm acc.s.hidden i hi
                rwa [hgeti'] at this
              have hperm2 : (acc.s.visited ++ (acc.s.available ++ [id]) ++
                  fastRemoveAt acc.s.hidden i).Perm (nodeIds config) := by
                refine List.Perm.trans ?_ hperm
                have e1 : acc.s.visited ++ (acc.s.available ++ [id]) ++ fastRemoveAt acc.s.hidden i
                    = acc.s.visited ++ (acc.s.available ++ (id :: fastRemoveAt acc.s.hidden i)) := by
                  simp [List.append_assoc]
                have e2 : acc.s.visited ++ acc.s.available ++ acc.s.hidden
                    = acc.s.visited ++ (acc.s.available ++ acc.s.hidden) := by
                  simp [List.append_assoc]
                rw [e1, e2]
                exact List.Perm.append_left _ (List.Perm.append_left _ hfra)
              refine ⟨hperm2, ?_⟩
              intro x hx
              by_cases hcase : node.unlockType = .auto ∧ useAuto = true
              · rw [if_pos hcase] at hx
                rcases List.mem_append.mp hx with hx | hx
                · exact hauto x hx
                · have hxid : x = id := by simpa using hx
                  subst hxid
                  exact hperm.subset (by simp [hidmem])
              · rw [if_neg hcase] at hx
                exact hauto x hx
            · rw [if_pos (by simpa using hsat)]
              exact ⟨hperm, hauto⟩

theorem scanAvailBody_pres (config : Configuration) (i : Nat) (s : TraversalState)
    (h : (s.visited ++ s.available ++ s.hidden).Perm (nodeIds config)) :
    ((scanAvailBody config i s).visited ++ (scanAvailBody config i s).available ++
      (scanAvailBody config i s).hidden).Perm (nodeIds config) := by
  unfold scanAvailBody
  cases hid : s.available[i]? with
  | none => exact h
  | some id =>
      dsimp only
      cases hfind : findNode config id with
      | none => exact h
      | some node =>
          dsimp only
          by_cases hsat : satisfiesRequirements s node = true
          · rw [if_pos hsat]
            exact h
          · rw [if_neg hsat]
            dsimp only
            obtain ⟨hi, hgeti⟩ := List.getElem?_eq_some.mp hid
            have hgeti' : s.available.get ⟨i, hi⟩ = id := hgeti
            have hfra : (id :: fastRemoveAt s.available i).Perm s.available := by
              have := fastRemoveAt_perm s.available i hi
              rwa [hgeti'] at this
            refine List.Perm.trans ?_ h
            have e1 : s.visited ++ fastRemoveAt s.available i ++ (s.hidden ++ [id])
                = s.visited ++ (fastRemoveAt s.available i ++ (s.hidden ++ [id])) := by
              simp [List.append_assoc]
            have e2 : s.visited ++ s.available ++ s.hidden
                = s.visited ++ (s.available ++ s.hidden) := by
              simp [List.append_assoc]
            rw [e1, e2]
            refine List.Perm.append_left s.visited ?_
            have h1 : (fastRemoveAt s.available i ++ (s.hidden ++ [id])).Perm
                (fastRemoveAt s.available i ++ (id :: s.hidden)) :=
              List.Perm.append_left _ (List.perm_append_singleton id s.hidden)
            have h2 : (fastRemoveAt s.available i ++ (id :: s.hidden)).Perm
                ((id :: fastRemoveAt s.available i) ++ s.hidden) := List.perm_middle
            have h3 : ((id :: fastRemoveAt s.available i) ++ s.hidden).Perm
                (s.available ++ s.hidden) := List.Perm.append hfra (List.Perm.refl _)
            exact (h1.trans h2).trans h3



theorem scanForVisible_pres (config : Configuration) (s : TraversalState) (useAuto : Bool)
    (h : (s.visited ++ s.available ++ s.hidden).Perm (nodeIds config)) :
    (((scanForVisible config s useAuto).2.visited ++ (scanForVisible config s useAuto).2.available
        ++ (scanForVisible config s useAuto).2.hidden).Perm (nodeIds config)) ∧
    ∀ x ∈ (scanForVisible config s useAuto).1, x ∈ nodeIds config := by
  unfold scanForVisible
  have P1 := loopDown_pres
    (fun acc : ScanAcc =>
      (acc.s.visited ++ acc.s.available ++ acc.s.hidden).Perm (nodeIds config) ∧
      ∀ x ∈ acc.auto, x ∈ nodeIds config)
    (scanHiddenBody config useAuto)
    (fun i acc hacc => scanHiddenBody_pres config useAuto i acc hacc)
    s.hidden.length ⟨s, []⟩ ⟨h, by simp⟩
  obtain ⟨hp1, hauto⟩ := P1
  have P2 := loopDown_pres
    (fun t : TraversalState =>
      (t.visited ++ t.available ++ t.hidden).Perm (nodeIds config))
    (scanAvailBody config)
    (fun i t ht => scanAvailBody_pres config i t ht)
    (loopDown (scanHiddenBody config useAuto) s.hidden.length ⟨s, []⟩).s.available.length
    (loopDown (scanHiddenBody config useAuto) s.hidden.length ⟨s, []⟩).s hp1
  exact ⟨P2, hauto⟩

theorem changeStatus_untouched (s : TraversalState) (id : String) (a : Amount) :
    (changeStatus s id a).2.visited = s.visited ∧
    (changeStatus s id a).2.available = s.available ∧
    (changeStatus s id a).2.hidden = s.hidden := by
  refine ⟨?_, ?_, ?_⟩ <;>
    (unfold changeStatus; rcases a with b | q | _ <;> dsimp only <;> repeat' split) <;> rfl

theorem changeStatus_new_asset (s : TraversalState) (id : String) (a : Amount)
    (h : (changeStatus s id a).1 = .NEW_ASSET) : a = .bool true := by
  rcases a with b | q | _
  · unfold changeStatus at h
    dsimp only at h
    by_cases hle : looseEqBool (s.status id) b = true
    · rw [if_pos hle] at h
      exact absurd h (by simp)
    · rw [if_neg hle] at h
      cases b
      · simp at h
      · rfl
  · unfold changeStatus at h
    dsimp only at h
    repeat' split at h
    all_goals simp_all
  · unfold changeStatus at h
    dsimp only at h
    repeat' split at h
    all_goals simp_all

theorem resolveValue_bool (s : TraversalState) (id : String) (a : Amount) (fc : Bool) (b : Bool)
    (h : resolveValue s id a fc = .bool b) : a = .bool b := by
  rcases a with b' | q | _
  · simpa [resolveValue] using h
  · unfold resolveValue at h
    unfold mulRound at h
    repeat' split at h
    all_goals simp_all
  · unfold resolveValue at h
    repeat' split at h
    all_goals simp_all



theorem applyRequirementsList_untouched :
    ∀ (l : List NodeRef) (step : TraversalStep) (s : TraversalState),
    (applyRequirementsList step s l).2.visited = s.visited ∧
    (applyRequirementsList step s l).2.available = s.available ∧
    (applyRequirementsList step s l).2.hidden = s.hidden := by
  intro l
  induction l with
  | nil => intro step s; exact ⟨rfl, rfl, rfl⟩
  | cons req rest ih =>
      intro step s
      unfold applyRequirementsList
      by_cases hc : req.consume = true
      · rw [if_pos hc]
        dsimp only
        obtain ⟨h1, h2, h3⟩ := changeStatus_untouched s req.id
          (resolveValue s req.id (toConsume req.amount) false)
        obtain ⟨g1, g2, g3⟩ := ih (addChange step req.id
          (resolveValue s req.id (toConsume req.amount) false) false)
          (changeStatus s req.id (resolveValue s req.id (toConsume req.amount) false)).2
        exact ⟨g1.trans h1, g2.trans h2, g3.trans h3⟩
      · rw [if_neg hc]
        exact ih step s

theorem applyResultsList_spec :
    ∀ (l : List NodeRef) (step : TraversalStep) (s : TraversalState) (queue : List String),
    (applyResultsList step s queue l).2.1.visited = s.visited ∧
    (applyResultsList step s queue l).2.1.available = s.available ∧
    (applyResultsList step s queue l).2.1.hidden = s.hidden ∧
    (∀ x ∈ (applyResultsList step s queue l).2.2,
        x ∈ queue ∨ ∃ r ∈ l, r.id = x ∧ r.amount = .bool true ∧
          r.consume = false ∧ r.unlock = false) := by
  intro l
  induction l with
  | nil => intro step s queue; exact ⟨rfl, rfl, rfl, fun x hx => Or.inl hx⟩
  | cons res rest ih =>
      intro step s queue
      unfold applyResultsList
      by_cases hc : res.consume = true
      · rw [if_pos hc]
        dsimp only
        obtain ⟨h1, h2, h3⟩ := changeStatus_untouched s res.id
          (resolveValue s res.id (toConsume res.amount) false)
        obtain ⟨g1, g2, g3, g4⟩ := ih (addChange step res.id
          (resolveValue s res.id (toConsume res.amount) false) false)
          (changeStatus s res.id (resolveValue s res.id (toConsume res.amount) false)).2 queue
        refine ⟨g1.trans h1, g2.trans h2, g3.trans h3, ?_⟩
        intro x hx
        rcases g4 x hx with hq | ⟨r, hr, hrest⟩
        · exact Or.inl hq
        · exact Or.inr ⟨r, by simp [hr], hrest⟩
      · rw [if_neg hc]
        by_cases hu : res.unlock = true
        · rw [if_pos hu]
          by_cases hmem : res.id ∈ s.unlocked
          · rw [if_pos hmem]
            obtain ⟨g1, g2, g3, g4⟩ := ih step s queue
            refine ⟨g1, g2, g3, ?_⟩
            intro x hx
            rcases g4 x hx with hq | ⟨r, hr, hrest⟩
            · exact Or.inl hq
            · exact Or.inr ⟨r, by simp [hr], hrest⟩
          · rw [if_neg hmem]
            obtain ⟨g1, g2, g3, g4⟩ := ih (addChange step res.id (.num 0) true)
              { s with unlocked := s.unlocked ++ [res.id] } queue
            refine ⟨g1, g2, g3, ?_⟩
            intro x hx
            rcases g4 x hx with hq | ⟨r, hr, hrest⟩
            · exact Or.inl hq
            · exact Or.inr ⟨r, by simp [hr], hrest⟩
        · rw [if_neg hu]
          dsimp only
          by_cases hnc : (changeStatus s res.id (resolveValue s res.id res.amount false)).1
              = .NO_CHANGE
          · rw [if_pos hnc]
            obtain ⟨h1, h2, h3⟩ := changeStatus_untouched s res.id
              (resolveValue s res.id res.amount false)
            obtain ⟨g1, g2, g3, g4⟩ := ih step
              (changeStatus s res.id (resolveValue s res.id res.amount false)).2 queue
            refine ⟨g1.trans h1, g2.trans h2, g3.trans h3, ?_⟩
            intro x hx
            rcases g4 x hx with hq | ⟨r, hr, hrest⟩
            · exact Or.inl hq
            · exact Or.inr ⟨r, by simp [hr], hrest⟩
          · rw [if_neg hnc]
            obtain ⟨h1, h2, h3⟩ := changeStatus_untouched s res.id
              (resolveValue s res.id res.amount false)
            obtain ⟨g1, g2, g3, g4⟩ := ih (addChange step res.id
              (resolveValue s res.id res.amount false) false)
              (changeStatus s res.id (resolveValue s res.id res.amount false)).2
              (if (changeStatus s res.id (resolveValue s res.id res.amount false)).1
                  = .NEW_ASSET then queue ++ [res.id] else queue)
            refine ⟨g1.trans h1, g2.trans h2, g3.trans h3, ?_⟩
            intro x hx
            rcases g4 x hx with hq | ⟨r, hr, hrest⟩
            · by_cases hna : (changeStatus s res.id (resolveValue s res.id res.amount false)).1
                  = .NEW_ASSET
              · rw [if_pos hna] at hq
                rcases List.mem_append.mp hq with hq | hq
                · exact Or.inl hq
                · have hxid : x = res.id := by simpa using hq
                  subst hxid
                  have hb := changeStatus_new_asset s res.id
                    (resolveValue s res.id res.amount false) hna
                  have ha := resolveValue_bool s res.id res.amount false true hb
                  refine Or.inr ⟨res, by simp, rfl, ha, by simpa using hc, by simpa using hu⟩
              · rw [if_neg hna] at hq
                exact Or.inl hq
            · exact Or.inr ⟨r, by simp [hr], hrest⟩



theorem move_to_visited_perm (ids : List String) (hnd : ids.Nodup)
    (v a h : List String) (x : String)
    (hperm : (v ++ a ++ h).Perm ids) (hx : x ∈ ids) (hnv : x ∉ v) :
    ((v ++ [x]) ++ fastRemove a x ++ fastRemove h x).Perm ids := by
  have hnodup : (v ++ a ++ h).Nodup := hperm.nodup_iff.mpr hnd
  have hmem : x ∈ v ++ a ++ h := hperm.mem_iff.mpr hx
  have hah : x ∈ a ∨ x ∈ h := by
    rcases List.mem_append.mp hmem with hva | hh
    · rcases List.mem_append.mp hva with hv | ha
      · exact absurd hv hnv
      · exact Or.inl ha
    · exact Or.inr hh
  have hdisj : List.Disjoint (v ++ a) h := List.disjoint_of_nodup_append hnodup
  rcases hah with ha | hh
  · have hxh : x ∉ h := fun hxh => hdisj (List.mem_append.mpr (Or.inr ha)) hxh
    rw [fastRemove_not_mem h x hxh]
    have hfa := fastRemove_perm a x ha
    refine List.Perm.trans ?_ hperm
    have e1 : (v ++ [x]) ++ fastRemove a x ++ h = v ++ ((x :: fastRemove a x) ++ h) := by
      simp [List.append_assoc]
    have e2 : v ++ a ++ h = v ++ (a ++ h) := by simp [List.append_assoc]
    rw [e1, e2]
    exact List.Perm.append_left v (List.Perm.append hfa (List.Perm.refl h))
  · have hnab : (v ++ a).Nodup := List.Nodup.of_append_left hnodup
    have hdisj2 : List.Disjoint v a := List.disjoint_of_nodup_append hnab
    have hxa : x ∉ a := fun hxa => hdisj (List.mem_append.mpr (Or.inr hxa)) hh
    rw [fastRemove_not_mem a x hxa]
    have hfh := fastRemove_perm h x hh
    refine List.Perm.trans ?_ hperm
    have e1 : (v ++ [x]) ++ a ++ fastRemove h x
        = v ++ (x :: (a ++ fastRemove h x)) := by simp [List.append_assoc]
    have e2 : v ++ a ++ h = v ++ (a ++ h) := by simp [List.append_assoc]
    rw [e1, e2]
    refine List.Perm.append_left v ?_
    have p1 : (x :: (a ++ fastRemove h x)).Perm (a ++ (x :: fastRemove h x)) :=
      List.perm_middle.symm
    exact p1.trans (List.Perm.append_left a hfh)


theorem applyRequirements_visited (s : TraversalState) (node : NodeData) (step : TraversalStep) :
    (applyRequirements s node step).2.visited = s.visited :=
  (applyRequirementsList_untouched node.requires step s).1

theorem applyRequirements_available (s : TraversalState) (node : NodeData) (step : TraversalStep) :
    (applyRequirements s node step).2.available = s.available :=
  (applyRequirementsList_untouched node.requires step s).2.1

theorem applyRequirements_hidden (s : TraversalState) (node : NodeData) (step : TraversalStep) :
    (applyRequirements s node step).2.hidden = s.hidden :=
  (applyRequirementsList_untouched node.requires step s).2.2

theorem applyResults_visited (s : TraversalState) (node : NodeData) (step : TraversalStep)
    (q : List String) : (applyResults s node step q).2.1.visited = s.visited :=
  (applyResultsList_spec node.results step s q).1

theorem applyResults_available (s : TraversalState) (node : NodeData) (step : TraversalStep)
    (q : List String) : (applyResults s node step q).2.1.available = s.available :=
  (applyResultsList_spec node.results step s q).2.1

theorem applyResults_hidden (s : TraversalState) (node : NodeData) (step : TraversalStep)
    (q : List String) : (applyResults s node step q).2.1.hidden = s.hidden :=
  (applyResultsList_spec node.results step s q).2.2.1

theorem applyResults_queue (s : TraversalState) (node : NodeData) (step : TraversalStep)
    (q : List String) :
    ∀ x ∈ (applyResults s node step q).2.2,
      x ∈ q ∨ ∃ r ∈ node.results, r.id = x ∧ r.amount = .bool true ∧
        r.consume = false ∧ r.unlock = false :=
  (applyResultsList_spec node.results step s q).2.2.2

theorem visitLoop_pres (config : Configuration) (hnd : (nodeIds config).Nodup)
    (hwf : ∀ n ∈ config.nodes, ∀ r ∈ n.results,
        r.amount = .bool true → r.consume = false → r.unlock = false → r.id ∈ nodeIds config)
    (rootId : String) (hadStep : Bool) :
    ∀ (fuel : Nat) (queue : List String) (step : TraversalStep) (took : Bool)
      (s : TraversalState),
    (s.visited ++ s.available ++ s.hidden).Perm (nodeIds config) →
    (∀ x ∈ queue, x ∈ nodeIds config) →
    ((visitLoop config rootId hadStep fuel queue step took s).2.2.visited ++
     (visitLoop config rootId hadStep fuel queue step took s).2.2.available ++
     (visitLoop config rootId hadStep fuel queue step took s).2.2.hidden).Perm
      (nodeIds config) := by
  intro fuel
  induction fuel with
  | zero => intro queue step took s hperm hq; exact hperm
  | succ fuel ih =>
      intro queue step took s hperm hq
      cases queue with
      | nil => exact hperm
      | cons nodeId rest =>
          have hnode : nodeId ∈ nodeIds config := hq nodeId (by simp)
          have hrest : ∀ x ∈ rest, x ∈ nodeIds config := fun x hx => hq x (by simp [hx])
          unfold visitLoop
          by_cases hv : nodeId ∈ s.visited
          · rw [if_pos hv]
            exact ih rest step took s hperm hrest
          · rw [if_neg hv]
            dsimp only
            have hperm1 : ((s.visited ++ [nodeId]) ++ fastRemove s.available nodeId
                ++ fastRemove s.hidden nodeId).Perm (nodeIds config) :=
              move_to_visited_perm (nodeIds config) hnd s.visited s.available s.hidden nodeId
                hperm hnode hv
            cases hfind : findNode config nodeId with
            | none =>
                dsimp only
                exact ih rest _ true _ hperm1 hrest
            | some node =>
                dsimp only
                have hnodemem : node ∈ config.nodes := List.mem_of_find?_eq_some hfind
                refine ih _ _ true _ ?_ ?_
                · by_cases hroot : nodeId = rootId
                  · rw [if_pos hroot]
                    simp only [applyResults_visited, applyResults_available,
                      applyResults_hidden, applyRequirements_visited,
                      applyRequirements_available, applyRequirements_hidden]
                    exact hperm1
                  · rw [if_neg hroot]
                    simp only [applyResults_visited, applyResults_available,
                      applyResults_hidden]
                    exact hperm1
                · intro x hx
                  by_cases hroot : nodeId = rootId
                  · rw [if_pos hroot] at hx
                    rcases applyResults_queue _ node _ rest x hx
                      with hxr | ⟨r, hr, hid, hamt, hcons, hunl⟩
                    · exact hrest x hxr
                    · subst hid
                      exact hwf node hnodemem r hr hamt hcons hunl
                  · rw [if_neg hroot] at hx
                    rcases applyResults_queue _ node _ rest x hx
                      with hxr | ⟨r, hr, hid, hamt, hcons, hunl⟩
                    · exact hrest x hxr
                    · subst hid
                      exact hwf node hnodemem r hr hamt hcons hunl

theorem visit_pres (config : Configuration) (hnd : (nodeIds config).Nodup)
    (hwf : ∀ n ∈ config.nodes, ∀ r ∈ n.results,
        r.amount = .bool true → r.consume = false → r.unlock = false → r.id ∈ nodeIds config)
    (s : TraversalState) (queue : List String) (rootId : String)
    (stepOpt : Option TraversalStep)
    (hperm : (s.visited ++ s.available ++ s.hidden).Perm (nodeIds config))
    (hq : ∀ x ∈ queue, x ∈ nodeIds config) :
    ((visit config s queue rootId stepOpt).2.2.visited ++
     (visit config s queue rootId stepOpt).2.2.available ++
     (visit config s queue rootId stepOpt).2.2.hidden).Perm (nodeIds config) := by
  unfold visit
  dsimp only
  have hVL := visitLoop_pres config hnd hwf rootId stepOpt.isSome
    (visitFuel config queue) queue (stepOpt.getD ⟨rootId, [], []⟩) false s hperm hq
  by_cases hc : (visitLoop config rootId stepOpt.isSome (visitFuel config queue) queue
      (stepOpt.getD ⟨rootId, [], []⟩) false s).2.1 = true ∧ ¬ stepOpt.isSome = true
  · rw [if_pos hc]
    exact hVL
  · rw [if_neg hc]
    exact hVL

set_option maxHeartbeats 2000000 in
theorem performStep_pres (config : Configuration) (hnd : (nodeIds config).Nodup)
    (hwf : ∀ n ∈ config.nodes, ∀ r ∈ n.results,
        r.amount = .bool true → r.consume = false → r.unlock = false → r.id ∈ nodeIds config)
    (s : TraversalState) (sh : List String) (hsh : sh.Perm s.available)
    (hperm : (s.visited ++ s.available ++ s.hidden).Perm (nodeIds config)) :
    ((performStep config s sh).2.visited ++ (performStep config s sh).2.available ++
     (performStep config s sh).2.hidden).Perm (nodeIds config) := by
  unfold performStep
  by_cases hem : s.available.isEmpty = true
  · rw [if_pos hem]
    exact hperm
  · rw [if_neg hem]
    dsimp only
    have hperm0 : (s.visited ++ sh ++ s.hidden).Perm (nodeIds config) := by
      refine List.Perm.trans ?_ hperm
      exact List.Perm.append (List.Perm.append (List.Perm.refl _) hsh) (List.Perm.refl _)
    have hshne : sh ≠ [] := by
      intro he
      rw [he] at hsh
      have h0 : s.available = [] := (List.Perm.nil_eq hsh).symm
      rw [h0] at hem
      simp at hem
    have hid : sh.headD "" ∈ nodeIds config := by
      have hmem : sh.headD "" ∈ sh := by
        cases sh with
        | nil => exact absurd rfl hshne
        | cons y ys => simp
      have hmav : sh.headD "" ∈ s.available := hsh.subset hmem
      exact hperm.subset
        (List.mem_append.mpr (Or.inl (List.mem_append.mpr (Or.inr hmav))))
    have hq1 : ∀ x ∈ [sh.headD ""], x ∈ nodeIds config := by
      intro x hx
      have hxe : x = sh.headD "" := by simpa using hx
      subst hxe
      exact hid
    have hv1 := visit_pres config hnd hwf { s with available := sh } [sh.headD ""]
      (sh.headD "") none hperm0 hq1
    obtain ⟨hsc, hauto⟩ := scanForVisible_pres config
      (visit config { s with available := sh } [sh.headD ""] (sh.headD "") none).2.2 true hv1
    set v1 := visit config { s with available := sh } [sh.headD ""] (sh.headD "") none
      with hv1def
    set sc := scanForVisible config v1.2.2 true with hscdef
    by_cases ht : v1.2.1 = true
    · have hv2 := visit_pres config hnd hwf sc.2 sc.1 (sh.headD "") (some v1.1) hsc hauto
      by_cases hae : sc.1.isEmpty = true
      · simp only [if_pos ht, if_pos hae]
        exact hsc
      · simp only [if_pos ht, if_neg hae]
        exact hv2
    · have hv2 := visit_pres config hnd hwf sc.2 sc.1 (sh.headD "") none hsc hauto
      by_cases hae : sc.1.isEmpty = true
      · simp only [if_neg ht, if_pos hae]
        exact hsc
      · simp only [if_neg ht, if_neg hae]
        exact hv2

theorem resetFold_perm (st : String → Option Amount) :
    ∀ (nodes : List NodeData) (p : List String × List String),
    ((nodes.foldl
        (fun (acc : List String × List String) n =>
          if falsy (st n.id) then (acc.1 ++ [n.id], acc.2) else (acc.1, acc.2 ++ [n.id]))
        p).2 ++
     (nodes.foldl
        (fun (acc : List String × List String) n =>
          if falsy (st n.id) then (acc.1 ++ [n.id], acc.2) else (acc.1, acc.2 ++ [n.id]))
        p).1).Perm
      ((p.2 ++ p.1) ++ nodes.map (fun n => n.id)) := by
  intro nodes
  induction nodes with
  | nil => intro p; simp
  | cons n rest ih =>
      intro p
      rw [List.foldl_cons]
      by_cases hf : falsy (st n.id) = true
      · rw [if_pos hf]
        refine (ih (p.1 ++ [n.id], p.2)).trans ?_
        have e : (p.2 ++ (p.1 ++ [n.id])) ++ rest.map (fun n => n.id)
            = (p.2 ++ p.1) ++ (n.id :: rest.map (fun n => n.id)) := by
          simp [List.append_assoc]
        rw [e]
        simp [List.map_cons]
      · rw [if_neg hf]
        refine (ih (p.1, p.2 ++ [n.id])).trans ?_
        have e1 : ((p.2 ++ [n.id]) ++ p.1) ++ rest.map (fun n => n.id)
            = p.2 ++ (n.id :: (p.1 ++ rest.map (fun n => n.id))) := by
          simp [List.append_assoc]
        have e2 : (p.2 ++ p.1) ++ ((n :: rest).map (fun n => n.id))
            = p.2 ++ (p.1 ++ (n.id :: rest.map (fun n => n.id))) := by
          simp [List.append_assoc]
        rw [e1, e2]
        exact List.Perm.append_left p.2 List.perm_middle.symm

theorem traversalReset_pres (config : Configuration) (mods : Option RuntimeModifiers) :
    ((traversalReset config mods).visited ++ (traversalReset config mods).available ++
     (traversalReset config mods).hidden).Perm (nodeIds config) := by
  unfold traversalReset
  dsimp only
  refine (scanForVisible_pres config _ false ?_).1
  dsimp only
  have h := resetFold_perm (fun id => startWithAt config id) config.nodes ([], [])
  simp only [List.append_nil, List.nil_append] at h
  have e : (config.nodes.foldl
      (fun (acc : List String × List String) n =>
        if falsy (startWithAt config n.id) then (acc.1 ++ [n.id], acc.2)
        else (acc.1, acc.2 ++ [n.id]))
      ([], [])).2 ++ [] ++
      (config.nodes.foldl
      (fun (acc : List String × List String) n =>
        if falsy (startWithAt config n.id) then (acc.1 ++ [n.id], acc.2)
        else (acc.1, acc.2 ++ [n.id]))
      ([], [])).1
      = (config.nodes.foldl
      (fun (acc : List String × List String) n =>
        if falsy (startWithAt config n.id) then (acc.1 ++ [n.id], acc.2)
        else (acc.1, acc.2 ++ [n.id]))
      ([], [])).2 ++
      (config.nodes.foldl
      (fun (acc : List String × List String) n =>
        if falsy (startWithAt config n.id) then (acc.1 ++ [n.id], acc.2)
        else (acc.1, acc.2 ++ [n.id]))
      ([], [])).1 := by
    simp
  rw [e]
  exact h

theorem reachable_perm (config : Configuration) (hwf : WellFormedConfig config)
    (s : TraversalState) (hr : Reachable config s) :
    (s.visited ++ s.available ++ s.hidden).Perm (nodeIds config) := by
  induction hr with
  | reset mods => exact traversalReset_pres config mods
  | step s sh hsh h ih => exact performStep_pres config hwf.1 hwf.2 s sh hsh ih

/-- C6: for every traversal state reachable from `TraversalReset` by any
sequence of `TraversalPerformStep` calls on a well-formed graph (distinct
node ids, cascade results targeting known nodes), the lists `visited`,
`available` and `hidden` are pairwise disjoint and their union is exactly
the set of non-token node ids of the graph. -/
theorem claim6_partition_invariant (config : Configuration) (s : TraversalState)
    (hwf : WellFormedConfig config) (hr : Reachable config s) :
    PartitionHolds config s := by
  have hperm := reachable_perm config hwf s hr
  have hnd : (s.visited ++ s.available ++ s.hidden).Nodup :=
    (hperm.nodup_iff).mpr hwf.1
  rw [List.append_assoc] at hnd
  obtain ⟨hv, hah, hdisj⟩ := List.nodup_append.mp hnd
  obtain ⟨ha, hh, hdisj2⟩ := List.nodup_append.mp hah
  refine ⟨hperm, ?_, ?_, ?_, ?_⟩
  · rintro x ⟨hx1, hx2⟩
    exact hdisj hx1 (List.mem_append.mpr (Or.inl hx2))
  · rintro x ⟨hx1, hx2⟩
    exact hdisj hx1 (List.mem_append.mpr (Or.inr hx2))
  · rintro x ⟨hx1, hx2⟩
    exact hdisj2 hx1 hx2
  · intro x
    rw [← hperm.mem_iff]
    simp [List.mem_append, or_assoc]

/-- Witness for C6: the two-node scenario graph is well-formed and its
reset state satisfies the partition property. -/
theorem claim6_partition_invariant_witness :
    WellFormedConfig cfgAB ∧ PartitionHolds cfgAB (traversalReset cfgAB none) :=
  ⟨by decide, claim6_partition_invariant cfgAB _ (by decide) (Reachable.reset none)⟩

end ProgressionGraph
